import Mathlib

/-!
# Decoding, suppression and assembly in `detectObjects`

A shallow embedding of `detectObjects` from `src/objectDetection2D.cpp`.

* `float` and `double` values are the rationals they denote (`ℚ`); a float32
  operation is its exact result rounded by `roundF32`. Comparisons and the
  widening of `float` to `double` are exact.
* `int` values are integers (`Int`) kept within 32 bits: the conversion from
  float32 is `floatToInt`, the subtraction of lines 86 and 87 is reduced by
  `wrapInt32`.
* A `cv::Mat` of network output is the list of its rows, each row the list of
  its channel values.
* The network itself (`net.forward`) is outside the embedding: its result
  `netOutput` is an argument.
* The in/out argument `bBoxes` is threaded explicitly: the embedding takes the
  vector as it is on entry and returns it as it is on exit.
* A call that dies in an OpenCV assertion or reads outside a vector is `none`.
-/

namespace ObjectDetection2D

/-! ## Data model -/

/-- The integer rectangle `cv::Rect`: top-left corner and size. -/
structure Rect where
  x : Int
  y : Int
  width : Int
  height : Int
  deriving DecidableEq

/-- Modelled from the spec: the record `BoundingBox` is declared in a header
that is not part of the sources at hand; section 3 of the specification lists
the four fields that `detectObjects` writes. -/
structure BoundingBox where
  boxID : Int
  roi : Rect
  classID : Int
  confidence : ℚ
  deriving DecidableEq

/-- One entry of the three vectors `boxes`, `classIds` and `confidences`, which
the scan loop extends in lockstep (lines 89 to 91). -/
structure Candidate where
  box : Rect
  classId : Int
  confidence : ℚ
  deriving DecidableEq

/-- A network output tensor `cv::Mat`, as the list of its prediction rows. -/
abbrev Mat := List (List ℚ)

/-! ## Machine arithmetic -/

/-- The least value of the 32-bit `int`. -/
def INT_MIN : Int := -2147483648

/-- The greatest value of the 32-bit `int`. -/
def INT_MAX : Int := 2147483647

/-- Rounding of an exact value toward zero to an integer. -/
def truncTowardZero (q : ℚ) : Int :=
  if 0 ≤ q then ⌊q⌋ else ⌈q⌉

/-- Rounding to the nearest integer, a tie going to the even neighbour. -/
def roundHalfEven (x : ℚ) : Int :=
  if x - ⌊x⌋ < 1 / 2 then ⌊x⌋
  else if 1 / 2 < x - ⌊x⌋ then ⌊x⌋ + 1
  else if ⌊x⌋ % 2 = 0 then ⌊x⌋ else ⌊x⌋ + 1

/-- The spacing of the float32 values at `q`: `2 ^ (e - 23)` for
`2 ^ e ≤ |q| < 2 ^ (e + 1)` (24 significant bits), with `e` not below `-126`
(below `2 ^ (-126)` the spacing stays `2 ^ (-149)`). -/
def ulpF32 (q : ℚ) : ℚ :=
  (2 : ℚ) ^ (max (Int.log 2 |q|) (-126) - 23)

/-- The float32 value of an exact result `q`: the nearest multiple of the
spacing at `q`, a tie going to the even significand (IEEE 754 binary32,
round to nearest even). A result of magnitude `2 ^ 128` or more stands for an
infinity; like an infinity it lies outside the range of `int`. -/
def roundF32 (q : ℚ) : ℚ :=
  roundHalfEven (q / ulpF32 q) * ulpF32 q

/-- The float32 product `data[k] * img.cols` of lines 82 to 85: the `int`
operand is converted to float32 and the exact product of the two float32
values is rounded to float32. -/
def mulF32 (d : ℚ) (n : Int) : ℚ :=
  roundF32 (d * roundF32 n)

/-- The C++ conversion `(int)v` of a float32 value: rounding toward zero. When
the rounded value does not fit the 32-bit `int` the conversion is undefined in
C++; the x86 conversion instruction then yields `INT_MIN`, which is the value
taken here. -/
def floatToInt (x : ℚ) : Int :=
  if INT_MIN ≤ truncTowardZero x ∧ truncTowardZero x ≤ INT_MAX then truncTowardZero x
  else INT_MIN

/-- Reduction of an integer to the 32-bit `int` range, as two's complement
arithmetic does. Signed overflow is undefined in C++; the wrapped result is
the value taken here. -/
def wrapInt32 (z : Int) : Int :=
  (z - INT_MIN) % 4294967296 + INT_MIN

/-- The integers that the 32-bit `int` holds. -/
def InIntRange (z : Int) : Prop :=
  INT_MIN ≤ z ∧ z ≤ INT_MAX

/-! ## Decoder (lines 68 to 94) -/

/-- Modelled from the spec: `cv::minMaxLoc` is an OpenCV routine, not part of
the sources at hand. As called on line 78 it reports the maximum of the score
range and the position of that maximum (step 2 of section 4.2: "index of
maximum score", "that maximum value"); among equal maxima the first position is
reported, and an empty range is reported as value `0` at position `-1`. -/
def minMaxLoc : List ℚ → ℚ × Int
  | [] => (0, -1)
  | [s] => (s, 0)
  | s :: rest =>
    if s < (minMaxLoc rest).1 then ((minMaxLoc rest).1, (minMaxLoc rest).2 + 1) else (s, 0)

/-- Lines 81 to 87: the rectangle decoded from the four geometry channels.
Each product is a float32 product converted to `int`; `width / 2` is the `int`
division, rounding toward zero. -/
def decodeBox (d0 d1 d2 d3 : ℚ) (imgCols imgRows : Int) : Rect :=
  let cx := floatToInt (mulF32 d0 imgCols)
  let cy := floatToInt (mulF32 d1 imgRows)
  let width := floatToInt (mulF32 d2 imgCols)
  let height := floatToInt (mulF32 d3 imgRows)
  { x := wrapInt32 (cx - Int.tdiv width 2), y := wrapInt32 (cy - Int.tdiv height 2),
    width := width, height := height }

/-- The body of the inner loop (lines 73 to 92) on one prediction row.
`none`: the row has fewer than five channels, so `colRange(5, cols)` is
rejected by OpenCV. `some none`: the row is passed over. `some (some c)`: the
entry `c` is appended to `boxes`, `classIds` and `confidences`. -/
def decodeRow (imgCols imgRows : Int) (confThreshold : ℚ) : List ℚ → Option (Option Candidate)
  | d0 :: d1 :: d2 :: d3 :: _ :: scores =>
    if confThreshold < (minMaxLoc scores).1 then
      some (some { box := decodeBox d0 d1 d2 d3 imgCols imgRows,
                   classId := (minMaxLoc scores).2,
                   confidence := (minMaxLoc scores).1 })
    else
      some none
  | _ => none

/-- The inner loop (line 71) over the rows of one output tensor, extending the
candidate vectors `acc`. -/
def scanRows (imgCols imgRows : Int) (confThreshold : ℚ) :
    List (List ℚ) → List Candidate → Option (List Candidate)
  | [], acc => some acc
  | data :: rest, acc =>
    match decodeRow imgCols imgRows confThreshold data with
    | none => none
    | some none => scanRows imgCols imgRows confThreshold rest acc
    | some (some c) => scanRows imgCols imgRows confThreshold rest (acc ++ [c])

/-- The outer loop (line 68) over the output tensors. -/
def scanOutputs (imgCols imgRows : Int) (confThreshold : ℚ) :
    List Mat → List Candidate → Option (List Candidate)
  | [], acc => some acc
  | m :: rest, acc =>
    match scanRows imgCols imgRows confThreshold m acc with
    | none => none
    | some acc1 => scanOutputs imgCols imgRows confThreshold rest acc1

/-! ## Suppressor (line 98) -/

/-- Area of a rectangle. -/
def Rect.area (r : Rect) : Int :=
  r.width * r.height

/-- Area of the intersection of two axis-aligned rectangles. -/
def interArea (a b : Rect) : Int :=
  max 0 (min (a.x + a.width) (b.x + b.width) - max a.x b.x) *
    max 0 (min (a.y + a.height) (b.y + b.height) - max a.y b.y)

/-- Modelled from the spec: the overlap ratio used by the suppressor, section
4.3: "intersection area / union area, i.e. IoU". The union area is the sum of
the two areas less the intersection area. For a union area of 0 the ratio is
0, the value of a division by zero in `ℚ`. -/
def iou (a b : Rect) : ℚ :=
  (interArea a b : ℚ) / ((a.area + b.area - interArea a b : Int) : ℚ)

/-- Modelled from the spec: step 1 of section 4.3, "sort candidate indices by
descending confidence". The sort is stable. The `confThreshold` argument of the
contract `suppress(candidates, confThreshold, nmsThreshold)` is the score
threshold: only scores above it are entered. Every score that the scan loop
stores is above it (`scanOutputs_conf_gt`), so within `detectObjects` no
candidate is left out here (`sortedIndices_of_all_gt`). -/
def sortedIndices (scores : List ℚ) (scoreThreshold : ℚ) : List Nat :=
  (((scores.enum).filter (fun p => scoreThreshold < p.2)).insertionSort
    (fun p q => q.2 ≤ p.2)).map Prod.fst

/-- The rectangle at an index of `bboxes`. -/
def boxAt (bboxes : List Rect) (i : Nat) : Rect :=
  bboxes.getD i ⟨0, 0, 0, 0⟩

/-- Modelled from the spec: steps 2 and 3 of section 4.3, "repeatedly take the
highest-confidence remaining candidate, add its index to the kept set, and
remove every other remaining candidate whose rectangle overlap ratio with it
exceeds `nmsThreshold`", "until no candidates remain". -/
def suppressLoop (bboxes : List Rect) (nmsThreshold : ℚ) : List Nat → List Nat
  | [] => []
  | i :: rest =>
    i :: suppressLoop bboxes nmsThreshold
      (rest.filter (fun j => decide (iou (boxAt bboxes j) (boxAt bboxes i) ≤ nmsThreshold)))
termination_by l => l.length
decreasing_by
  simp_wf
  exact Nat.lt_succ_of_le (List.length_filter_le _ _)

/-- Modelled from the spec: `cv::dnn::NMSBoxes` is an OpenCV routine, not part
of the sources at hand; this is the suppressor of section 4.3, returning the
kept indices. -/
def NMSBoxes (bboxes : List Rect) (scores : List ℚ) (scoreThreshold nmsThreshold : ℚ) :
    List Nat :=
  suppressLoop bboxes nmsThreshold (sortedIndices scores scoreThreshold)

/-! ## Box assembler (lines 99 to 108) -/

/-- The loop over `indices`, appending to `bBoxes`. `none`: an index lies
outside the candidate vectors. -/
def assemble (cands : List Candidate) : List Nat → List BoundingBox → Option (List BoundingBox)
  | [], bBoxes => some bBoxes
  | it :: rest, bBoxes =>
    match cands[it]? with
    | none => none
    | some c =>
      assemble cands rest
        (bBoxes ++ [{ boxID := bBoxes.length, roi := c.box, classID := c.classId,
                      confidence := c.confidence }])

/-- The indices that survive suppression for given candidate vectors. -/
def keptIndices (cands : List Candidate) (confThreshold nmsThreshold : ℚ) : List Nat :=
  NMSBoxes (cands.map (fun c => c.box)) (cands.map (fun c => c.confidence))
    confThreshold nmsThreshold

/-- Lines 96 to 108: suppression and assembly from the candidate vectors. -/
def suppressAndAssemble (cands : List Candidate) (bBoxes : List BoundingBox)
    (confThreshold nmsThreshold : ℚ) : Option (List BoundingBox) :=
  assemble cands (keptIndices cands confThreshold nmsThreshold) bBoxes

/-- The detection part of `detectObjects` (lines 63 to 108): `netOutput` is the
result of the forward pass, `imgCols` and `imgRows` the image size, `bBoxes`
the vector of the caller on entry. The result is that vector on exit. -/
def detectObjects (netOutput : List Mat) (imgCols imgRows : Int) (bBoxes : List BoundingBox)
    (confThreshold nmsThreshold : ℚ) : Option (List BoundingBox) :=
  match scanOutputs imgCols imgRows confThreshold netOutput [] with
  | none => none
  | some cands => suppressAndAssemble cands bBoxes confThreshold nmsThreshold

/-- The number of candidates that survive suppression in a call: the length of
`indices` after line 98 (0 for a call that fails before that line). -/
def survivorCount (netOutput : List Mat) (imgCols imgRows : Int)
    (confThreshold nmsThreshold : ℚ) : Nat :=
  match scanOutputs imgCols imgRows confThreshold netOutput [] with
  | none => 0
  | some cands => (keptIndices cands confThreshold nmsThreshold).length

/-! ## Renderer: label background (lines 117 to 137) -/

/-- The C++ `std::round` followed by the conversion to `int`: rounding to the
nearest integer, halves away from zero. -/
def roundToInt (q : ℚ) : Int :=
  if 0 ≤ q then ⌊q + 1 / 2⌋ else ⌈q - 1 / 2⌉

/-- Lines 117, 130 and 134: the y-coordinate of the top edge of the filled
label background, for a box with top `roiY` and a label of text height
`labelHeight` (the height reported by `getTextSize`). -/
def labelBackgroundTop (roiY labelHeight : Int) : Int :=
  max roiY labelHeight - roundToInt ((3 / 2 : ℚ) * labelHeight)


/-! ## The maximum search -/

theorem minMaxLoc_cons_cons (s t : ℚ) (rest : List ℚ) :
    minMaxLoc (s :: t :: rest) =
      if s < (minMaxLoc (t :: rest)).1 then
        ((minMaxLoc (t :: rest)).1, (minMaxLoc (t :: rest)).2 + 1)
      else (s, 0) := by
  rw [minMaxLoc]
  simp

theorem minMaxLoc_ge : ∀ (l : List ℚ) (s : ℚ), s ∈ l → s ≤ (minMaxLoc l).1
  | [], s, h => by simp at h
  | [a], s, h => by
    have : s = a := by simpa using h
    simp [minMaxLoc, this]
  | a :: b :: rest, s, h => by
    rw [minMaxLoc_cons_cons]
    have ih := minMaxLoc_ge (b :: rest)
    rcases List.mem_cons.mp h with h1 | h1
    · subst h1
      split_ifs with hlt
      · exact le_of_lt hlt
      · exact le_refl _
    · have h2 := ih s h1
      split_ifs with hlt
      · exact h2
      · exact le_trans h2 (not_lt.mp hlt)

theorem minMaxLoc_mem : ∀ (l : List ℚ), l ≠ [] → (minMaxLoc l).1 ∈ l
  | [], h => absurd rfl h
  | [a], _ => by simp [minMaxLoc]
  | a :: b :: rest, _ => by
    rw [minMaxLoc_cons_cons]
    have ih := minMaxLoc_mem (b :: rest) (by simp)
    split_ifs with hlt
    · exact List.mem_cons_of_mem _ ih
    · exact List.mem_cons_self _ _

theorem minMaxLoc_eq_of_isMax (l : List ℚ) (m : ℚ) (hm : m ∈ l) (hmax : ∀ s ∈ l, s ≤ m) :
    (minMaxLoc l).1 = m := by
  have hne : l ≠ [] := List.ne_nil_of_mem hm
  exact le_antisymm (hmax _ (minMaxLoc_mem l hne)) (minMaxLoc_ge l m hm)

theorem minMaxLoc_loc : ∀ (l : List ℚ), l ≠ [] →
    0 ≤ (minMaxLoc l).2 ∧ (minMaxLoc l).2 < l.length ∧
      l[(minMaxLoc l).2.toNat]? = some (minMaxLoc l).1
  | [], h => absurd rfl h
  | [a], _ => by simp [minMaxLoc]
  | a :: b :: rest, _ => by
    rw [minMaxLoc_cons_cons]
    obtain ⟨h0, h1, h2⟩ := minMaxLoc_loc (b :: rest) (by simp)
    split_ifs with hlt
    · refine ⟨by positivity, ?_, ?_⟩
      · simp only [List.length_cons] at h1 ⊢
        push_cast at h1 ⊢
        linarith
      · have : ((minMaxLoc (b :: rest)).2 + 1).toNat = (minMaxLoc (b :: rest)).2.toNat + 1 := by
          omega
        simp only [this, List.getElem?_cons_succ]
        exact h2
    · simp only [List.length_cons, Int.toNat_zero, List.getElem?_cons_zero, le_refl, true_and,
        and_true]
      positivity


/-! ## The decoder -/

theorem exists_channels_of_mem_drop (data : List ℚ) (m : ℚ) (hm : m ∈ data.drop 5) :
    ∃ d0 d1 d2 d3 o scores, data = d0 :: d1 :: d2 :: d3 :: o :: scores := by
  match data, hm with
  | [], h => simp at h
  | [_], h => simp at h
  | [_, _], h => simp at h
  | [_, _, _], h => simp at h
  | [_, _, _, _], h => simp at h
  | d0 :: d1 :: d2 :: d3 :: o :: scores, _ => exact ⟨d0, d1, d2, d3, o, scores, rfl⟩

theorem decodeRow_channels (imgCols imgRows : Int) (confThreshold : ℚ)
    (d0 d1 d2 d3 o : ℚ) (scores : List ℚ) :
    decodeRow imgCols imgRows confThreshold (d0 :: d1 :: d2 :: d3 :: o :: scores) =
      if confThreshold < (minMaxLoc scores).1 then
        some (some { box := decodeBox d0 d1 d2 d3 imgCols imgRows,
                     classId := (minMaxLoc scores).2,
                     confidence := (minMaxLoc scores).1 })
      else some none := by
  rw [decodeRow]

theorem scanRows_single (imgCols imgRows : Int) (confThreshold : ℚ) (data : List ℚ)
    (acc : List Candidate) :
    scanRows imgCols imgRows confThreshold [data] acc =
      match decodeRow imgCols imgRows confThreshold data with
      | none => none
      | some none => some acc
      | some (some c) => some (acc ++ [c]) := by
  rw [scanRows]
  cases h : decodeRow imgCols imgRows confThreshold data with
  | none => rfl
  | some r =>
    cases r with
    | none => simp [scanRows]
    | some c => simp [scanRows]

/-- C1: a prediction row whose class scores (channels 5 and up) have maximum
`m` makes the scan loop append an entry exactly when `m` is strictly greater
than `confThreshold`; when `m` equals `confThreshold` the row is passed over
and the candidate vectors are unchanged. -/
theorem decodeRow_emits_iff_max_gt (imgCols imgRows : Int) (confThreshold : ℚ)
    (data : List ℚ) (acc : List Candidate) (m : ℚ)
    (hm : m ∈ data.drop 5) (hmax : ∀ s ∈ data.drop 5, s ≤ m) :
    ((∃ c, decodeRow imgCols imgRows confThreshold data = some (some c)) ↔ confThreshold < m) ∧
    ((∃ c, scanRows imgCols imgRows confThreshold [data] acc = some (acc ++ [c])) ↔
      confThreshold < m) ∧
    (¬ confThreshold < m → scanRows imgCols imgRows confThreshold [data] acc = some acc) ∧
    (m = confThreshold → decodeRow imgCols imgRows confThreshold data = some none ∧
      scanRows imgCols imgRows confThreshold [data] acc = some acc) := by
  obtain ⟨d0, d1, d2, d3, o, scores, rfl⟩ := exists_channels_of_mem_drop data m hm
  have hval : (minMaxLoc scores).1 = m := minMaxLoc_eq_of_isMax scores m hm hmax
  have hrow := decodeRow_channels imgCols imgRows confThreshold d0 d1 d2 d3 o scores
  rw [hval] at hrow
  by_cases hgt : confThreshold < m
  · rw [if_pos hgt] at hrow
    have hscan : scanRows imgCols imgRows confThreshold
        [d0 :: d1 :: d2 :: d3 :: o :: scores] acc =
        some (acc ++ [{ box := decodeBox d0 d1 d2 d3 imgCols imgRows,
                        classId := (minMaxLoc scores).2, confidence := m }]) := by
      rw [scanRows_single, hrow]
    exact ⟨⟨fun _ => hgt, fun _ => ⟨_, hrow⟩⟩, ⟨fun _ => hgt, fun _ => ⟨_, hscan⟩⟩,
      fun h => absurd hgt h, fun h => absurd hgt (by rw [h]; exact lt_irrefl _)⟩
  · rw [if_neg hgt] at hrow
    have hscan : scanRows imgCols imgRows confThreshold
        [d0 :: d1 :: d2 :: d3 :: o :: scores] acc = some acc := by
      rw [scanRows_single, hrow]
    refine ⟨⟨fun ⟨c, hc⟩ => ?_, fun h => absurd h hgt⟩, ⟨fun ⟨c, hc⟩ => ?_, fun h => absurd h hgt⟩,
      fun _ => hscan, fun _ => ⟨hrow, hscan⟩⟩
    · rw [hrow] at hc
      simp at hc
    · rw [hscan] at hc
      simp at hc

/-- Witness for C1 at the row with class scores `[1/2, 1/4]` and threshold
`1/2`: the maximum equals the threshold and nothing is appended. -/
theorem decodeRow_emits_iff_max_gt_witness :
    ((1 / 2 : ℚ) ∈ ([0, 0, 1, 1, 0, 1 / 2, 1 / 4] : List ℚ).drop 5) ∧
    (∀ s ∈ ([0, 0, 1, 1, 0, 1 / 2, 1 / 4] : List ℚ).drop 5, s ≤ (1 / 2 : ℚ)) ∧
    decodeRow 10 10 (1 / 2) [0, 0, 1, 1, 0, 1 / 2, 1 / 4] = some none ∧
    scanRows 10 10 (1 / 2) [[0, 0, 1, 1, 0, 1 / 2, 1 / 4]] [] = some [] :=
  have hm : (1 / 2 : ℚ) ∈ ([0, 0, 1, 1, 0, 1 / 2, 1 / 4] : List ℚ).drop 5 := by simp
  have hmax : ∀ s ∈ ([0, 0, 1, 1, 0, 1 / 2, 1 / 4] : List ℚ).drop 5, s ≤ (1 / 2 : ℚ) := by
    intro s hs
    have : s = 1 / 2 ∨ s = 1 / 4 := by simpa using hs
    rcases this with h | h
    · subst h
      norm_num
    · subst h
      norm_num
  ⟨hm, hmax,
    (decodeRow_emits_iff_max_gt 10 10 (1 / 2) [0, 0, 1, 1, 0, 1 / 2, 1 / 4] [] (1 / 2)
      hm hmax).2.2.2 rfl⟩

/-- C4: for a prediction row with at least one class channel whose maximum
class score `m` exceeds `confThreshold`, an entry is emitted, its confidence is
`m`, and its class id is a position of the score range (channels 5 and up), at
least 0 and below `cols - 5`, whose score is `m`. -/
theorem decodeRow_class_selection (imgCols imgRows : Int) (confThreshold : ℚ)
    (data : List ℚ) (m : ℚ)
    (hm : m ∈ data.drop 5) (hmax : ∀ s ∈ data.drop 5, s ≤ m) (hgt : confThreshold < m) :
    ∃ c, decodeRow imgCols imgRows confThreshold data = some (some c) ∧
      c.confidence = m ∧ 0 ≤ c.classId ∧ c.classId < (data.length : Int) - 5 ∧
      data[5 + c.classId.toNat]? = some m := by
  obtain ⟨d0, d1, d2, d3, o, scores, rfl⟩ := exists_channels_of_mem_drop data m hm
  have hm1 : m ∈ scores := by simpa using hm
  have hval : (minMaxLoc scores).1 = m := minMaxLoc_eq_of_isMax scores m hm hmax
  obtain ⟨h0, h1, h2⟩ := minMaxLoc_loc scores (List.ne_nil_of_mem hm1)
  have hrow := decodeRow_channels imgCols imgRows confThreshold d0 d1 d2 d3 o scores
  rw [hval, if_pos hgt] at hrow
  refine ⟨_, hrow, rfl, h0, ?_, ?_⟩
  · simp only [List.length_cons]
    push_cast
    linarith
  · rw [hval] at h2
    have : 5 + (minMaxLoc scores).2.toNat = (minMaxLoc scores).2.toNat + 5 := by omega
    simp only [this, List.getElem?_cons_succ]
    exact h2

/-- Witness for C4 on scenario 1: class scores `[0.1, 0.9]`, threshold `0.5`. -/
theorem decodeRow_class_selection_witness :
    ((9 / 10 : ℚ) ∈ ([1 / 2, 1 / 2, 1 / 5, 2 / 5, 0, 1 / 10, 9 / 10] : List ℚ).drop 5) ∧
    (∀ s ∈ ([1 / 2, 1 / 2, 1 / 5, 2 / 5, 0, 1 / 10, 9 / 10] : List ℚ).drop 5,
      s ≤ (9 / 10 : ℚ)) ∧
    ((1 / 2 : ℚ) < 9 / 10) ∧
    ∃ c, decodeRow 100 200 (1 / 2) [1 / 2, 1 / 2, 1 / 5, 2 / 5, 0, 1 / 10, 9 / 10] =
        some (some c) ∧
      c.confidence = 9 / 10 ∧ 0 ≤ c.classId ∧
      c.classId < (([1 / 2, 1 / 2, 1 / 5, 2 / 5, 0, 1 / 10, 9 / 10] : List ℚ).length : Int) - 5 ∧
      ([1 / 2, 1 / 2, 1 / 5, 2 / 5, 0, 1 / 10, 9 / 10] : List ℚ)[5 + c.classId.toNat]? =
        some (9 / 10) :=
  have hm : (9 / 10 : ℚ) ∈ ([1 / 2, 1 / 2, 1 / 5, 2 / 5, 0, 1 / 10, 9 / 10] : List ℚ).drop 5 := by
    simp
  have hmax : ∀ s ∈ ([1 / 2, 1 / 2, 1 / 5, 2 / 5, 0, 1 / 10, 9 / 10] : List ℚ).drop 5,
      s ≤ (9 / 10 : ℚ) := by
    intro s hs
    have : s = 1 / 10 ∨ s = 9 / 10 := by simpa using hs
    rcases this with h | h
    · subst h
      norm_num
    · subst h
      norm_num
  have hgt : (1 / 2 : ℚ) < 9 / 10 := by norm_num
  ⟨hm, hmax, hgt, decodeRow_class_selection 100 200 (1 / 2) _ (9 / 10) hm hmax hgt⟩

/-! ## Machine arithmetic: rounding and range -/

theorem roundHalfEven_eq_of_abs_lt (x : ℚ) (m : Int) (h : |x - m| < 1 / 2) :
    roundHalfEven x = m := by
  rw [abs_lt] at h
  obtain ⟨h1, h2⟩ := h
  by_cases hm : (m : ℚ) ≤ x
  · have hf : ⌊x⌋ = m := by
      rw [Int.floor_eq_iff]
      constructor <;> linarith
    simp only [roundHalfEven, hf]
    rw [if_pos (by linarith)]
  · have hf : ⌊x⌋ = m - 1 := by
      rw [Int.floor_eq_iff]
      push_cast
      constructor <;> linarith
    simp only [roundHalfEven, hf]
    push_cast
    rw [if_neg (by linarith), if_pos (by linarith)]
    ring

theorem roundHalfEven_nonneg (x : ℚ) (h : 0 ≤ x) : 0 ≤ roundHalfEven x := by
  have hf : 0 ≤ ⌊x⌋ := Int.floor_nonneg.mpr h
  unfold roundHalfEven
  split_ifs <;> omega

theorem ulpF32_pos (q : ℚ) : 0 < ulpF32 q := by
  unfold ulpF32
  positivity

theorem ulpF32_eq (q : ℚ) (e : Int) (h1 : (2 : ℚ) ^ e ≤ |q|) (h2 : |q| < (2 : ℚ) ^ (e + 1))
    (he : -126 ≤ e) : ulpF32 q = (2 : ℚ) ^ (e - 23) := by
  have hpos : 0 < |q| := lt_of_lt_of_le (by positivity) h1
  have hl1 : e ≤ Int.log 2 |q| := by
    rw [← Int.zpow_le_iff_le_log (by norm_num) hpos]
    exact_mod_cast h1
  have hl2 : Int.log 2 |q| < e + 1 := by
    rw [← Int.lt_zpow_iff_log_lt (by norm_num) hpos]
    exact_mod_cast h2
  have hl : Int.log 2 |q| = e := by omega
  rw [ulpF32, hl, max_eq_left he]

/-- Evaluation of `roundF32`: for `q` in the binade of exponent `e`, the
result is `m * 2 ^ (e - 23)` when `m` is the integer within one half of
`q / 2 ^ (e - 23)`. -/
theorem roundF32_eq (q : ℚ) (e m : Int) (h1 : (2 : ℚ) ^ e ≤ |q|) (h2 : |q| < (2 : ℚ) ^ (e + 1))
    (he : -126 ≤ e) (hm : |q / (2 : ℚ) ^ (e - 23) - m| < 1 / 2) :
    roundF32 q = m * (2 : ℚ) ^ (e - 23) := by
  rw [roundF32, ulpF32_eq q e h1 h2 he, roundHalfEven_eq_of_abs_lt _ m hm]

theorem roundF32_nonneg (q : ℚ) (h : 0 ≤ q) : 0 ≤ roundF32 q := by
  unfold roundF32
  have hu := ulpF32_pos q
  have : 0 ≤ roundHalfEven (q / ulpF32 q) := roundHalfEven_nonneg _ (div_nonneg h hu.le)
  exact mul_nonneg (by exact_mod_cast this) hu.le

theorem mulF32_nonneg (d : ℚ) (n : Int) (hd : 0 ≤ d) (hn : 0 ≤ n) : 0 ≤ mulF32 d n :=
  roundF32_nonneg _ (mul_nonneg hd (roundF32_nonneg _ (by exact_mod_cast hn)))

theorem roundF32_zero : roundF32 0 = 0 := by
  simp [roundF32, roundHalfEven]

theorem roundF32_20 : roundF32 20 = 20 := by
  rw [roundF32_eq 20 4 (20 * 2 ^ 19) (by norm_num) (by norm_num) (by norm_num) (by norm_num)]
  norm_num

theorem roundF32_25 : roundF32 25 = 25 := by
  rw [roundF32_eq 25 4 (25 * 2 ^ 19) (by norm_num) (by norm_num) (by norm_num) (by norm_num)]
  norm_num

theorem roundF32_neg_25 : roundF32 (-25) = -25 := by
  rw [roundF32_eq (-25) 4 (-(25 * 2 ^ 19)) (by norm_num) (by norm_num) (by norm_num)
    (by norm_num)]
  norm_num

theorem roundF32_50 : roundF32 50 = 50 := by
  rw [roundF32_eq 50 5 (50 * 2 ^ 18) (by norm_num) (by norm_num) (by norm_num) (by norm_num)]
  norm_num

theorem roundF32_75 : roundF32 75 = 75 := by
  rw [roundF32_eq 75 6 (75 * 2 ^ 17) (by norm_num) (by norm_num) (by norm_num) (by norm_num)]
  norm_num

theorem roundF32_80 : roundF32 80 = 80 := by
  rw [roundF32_eq 80 6 (80 * 2 ^ 17) (by norm_num) (by norm_num) (by norm_num) (by norm_num)]
  norm_num

theorem roundF32_100 : roundF32 100 = 100 := by
  rw [roundF32_eq 100 6 (100 * 2 ^ 17) (by norm_num) (by norm_num) (by norm_num) (by norm_num)]
  norm_num

theorem roundF32_200 : roundF32 200 = 200 := by
  rw [roundF32_eq 200 7 (200 * 2 ^ 16) (by norm_num) (by norm_num) (by norm_num) (by norm_num)]
  norm_num

theorem roundF32_1000 : roundF32 1000 = 1000 := by
  rw [roundF32_eq 1000 9 (1000 * 2 ^ 14) (by norm_num) (by norm_num) (by norm_num)
    (by norm_num)]
  norm_num

theorem roundF32_3000000000 : roundF32 3000000000 = 3000000000 := by
  rw [roundF32_eq 3000000000 31 11718750 (by norm_num) (by norm_num) (by norm_num)
    (by norm_num)]
  norm_num

theorem mulF32_half_100 : mulF32 (1 / 2) 100 = 50 := by
  rw [mulF32]
  norm_num [roundF32_100, roundF32_50]

theorem mulF32_half_200 : mulF32 (1 / 2) 200 = 100 := by
  rw [mulF32]
  norm_num [roundF32_200, roundF32_100]

theorem mulF32_fifth_100 : mulF32 (1 / 5) 100 = 20 := by
  rw [mulF32]
  norm_num [roundF32_100, roundF32_20]

theorem mulF32_two_fifths_200 : mulF32 (2 / 5) 200 = 80 := by
  rw [mulF32]
  norm_num [roundF32_200, roundF32_80]

theorem mulF32_quarter_100 : mulF32 (1 / 4) 100 = 25 := by
  rw [mulF32]
  norm_num [roundF32_100, roundF32_25]

theorem mulF32_three_quarters_100 : mulF32 (3 / 4) 100 = 75 := by
  rw [mulF32]
  norm_num [roundF32_100, roundF32_75]

theorem mulF32_neg_quarter_100 : mulF32 (-1 / 4) 100 = -25 := by
  rw [mulF32]
  norm_num [roundF32_100, roundF32_neg_25]

theorem mulF32_zero_left (n : Int) : mulF32 0 n = 0 := by
  rw [mulF32, zero_mul, roundF32_zero]

theorem mulF32_3000000_1000 : mulF32 3000000 1000 = 3000000000 := by
  rw [mulF32]
  norm_num [roundF32_1000, roundF32_3000000000]

/-- The float32 nearest to `0.29` times 100: the exact product
`28.99999916...` rounds to the float32 value 29. -/
theorem mulF32_029f_100 : mulF32 (9730785 / 33554432) 100 = 29 := by
  rw [mulF32]
  simp only [Int.cast_ofNat, roundF32_100]
  rw [roundF32_eq _ 4 15204352 (by norm_num [abs_of_pos]) (by norm_num [abs_of_pos])
    (by norm_num) (by norm_num [abs_lt])]
  norm_num

/-- The float32 nearest to `0.78` times 100: the exact product
`77.99999713...` rounds to the float32 value 78. -/
theorem mulF32_078f_100 : mulF32 (3271557 / 4194304) 100 = 78 := by
  rw [mulF32]
  simp only [Int.cast_ofNat, roundF32_100]
  rw [roundF32_eq _ 6 10223616 (by norm_num [abs_of_pos]) (by norm_num [abs_of_pos])
    (by norm_num) (by norm_num [abs_lt])]
  norm_num

/-- The float32 just below the one nearest to `0.02`, times 100: the exact
product `1.99999976903...` rounds to the float32 value `1.99999976158...`. -/
theorem mulF32_below_002f_100 :
    mulF32 (10737417 / 536870912) 100 = 8388607 / 4194304 := by
  rw [mulF32]
  simp only [Int.cast_ofNat, roundF32_100]
  rw [roundF32_eq _ 0 16777214 (by norm_num [abs_of_pos]) (by norm_num [abs_of_pos])
    (by norm_num) (by norm_num [abs_lt])]
  norm_num

theorem truncTowardZero_of_nonneg (q : ℚ) (hq : 0 ≤ q) : truncTowardZero q = ⌊q⌋ := by
  simp [truncTowardZero, hq]

theorem truncTowardZero_nonneg (q : ℚ) (hq : 0 ≤ q) : 0 ≤ truncTowardZero q := by
  rw [truncTowardZero_of_nonneg q hq]
  exact Int.floor_nonneg.mpr hq

theorem truncTowardZero_intCast (n : Int) : truncTowardZero (n : ℚ) = n := by
  simp [truncTowardZero]

/-- Within the range of `int` the conversion is the truncation. -/
theorem floatToInt_of_inRange (x : ℚ) (h1 : INT_MIN ≤ truncTowardZero x)
    (h2 : truncTowardZero x ≤ INT_MAX) : floatToInt x = truncTowardZero x := by
  rw [floatToInt, if_pos ⟨h1, h2⟩]

theorem floatToInt_of_nonneg_lt (x : ℚ) (h0 : 0 ≤ x) (h1 : x < 2147483648) :
    floatToInt x = ⌊x⌋ ∧ 0 ≤ ⌊x⌋ ∧ ⌊x⌋ ≤ INT_MAX := by
  have hf0 : 0 ≤ ⌊x⌋ := Int.floor_nonneg.mpr h0
  have hf1 : ⌊x⌋ < 2147483648 := by
    have : (⌊x⌋ : ℚ) < ((2147483648 : Int) : ℚ) := lt_of_le_of_lt (Int.floor_le x) (by simpa using h1)
    exact_mod_cast this
  have hmax : ⌊x⌋ ≤ INT_MAX := by
    unfold INT_MAX
    omega
  have htr : truncTowardZero x = ⌊x⌋ := truncTowardZero_of_nonneg x h0
  refine ⟨?_, hf0, hmax⟩
  rw [floatToInt_of_inRange x (by rw [htr]; unfold INT_MIN; omega) (by rw [htr]; exact hmax), htr]

theorem floatToInt_intCast (n : Int) (h1 : INT_MIN ≤ n) (h2 : n ≤ INT_MAX) :
    floatToInt (n : ℚ) = n := by
  rw [floatToInt_of_inRange _ (by rw [truncTowardZero_intCast]; exact h1)
    (by rw [truncTowardZero_intCast]; exact h2), truncTowardZero_intCast]

theorem wrapInt32_of_inRange (z : Int) (h1 : INT_MIN ≤ z) (h2 : z ≤ INT_MAX) :
    wrapInt32 z = z := by
  unfold INT_MIN at h1
  unfold INT_MAX at h2
  unfold wrapInt32 INT_MIN
  omega

/-! ## Geometry -/

theorem decodeRow_some_some (imgCols imgRows : Int) (confThreshold : ℚ)
    (d0 d1 d2 d3 o : ℚ) (scores : List ℚ) (c : Candidate)
    (hq : decodeRow imgCols imgRows confThreshold (d0 :: d1 :: d2 :: d3 :: o :: scores) =
      some (some c)) :
    confThreshold < (minMaxLoc scores).1 ∧
      c = { box := decodeBox d0 d1 d2 d3 imgCols imgRows, classId := (minMaxLoc scores).2,
            confidence := (minMaxLoc scores).1 } := by
  rw [decodeRow_channels] at hq
  split_ifs at hq with hgt
  · refine ⟨hgt, ?_⟩
    simp only [Option.some.injEq] at hq
    exact hq.symm
  · simp at hq

/-- The rectangle of scenario 5, and of scenario 1. -/
theorem decodeBox_scenario5 :
    decodeBox (1 / 2) (1 / 2) (1 / 5) (2 / 5) 100 200 = ⟨40, 60, 20, 80⟩ := by
  simp only [decodeBox, mulF32_half_100, mulF32_half_200, mulF32_fifth_100,
    mulF32_two_fifths_200]
  norm_num [floatToInt, truncTowardZero, wrapInt32, INT_MIN, INT_MAX, Int.tdiv]

/-- Scenario 1 evaluated: class scores `[0.1, 0.9]` with threshold `0.5` give
one entry with class id 1 and confidence `0.9`. -/
theorem scenario1_class_selection :
    scanRows 100 200 (1 / 2) [[1 / 2, 1 / 2, 1 / 5, 2 / 5, 0, 1 / 10, 9 / 10]] [] =
      some [{ box := ⟨40, 60, 20, 80⟩, classId := 1, confidence := 9 / 10 }] := by
  rw [scanRows_single, decodeRow_channels, decodeBox_scenario5]
  norm_num [minMaxLoc]

/-- Two-step truncation of one axis: for float32 products `p0` (centre) and
`p2` (size) that are non-negative and below `2 ^ 31`, the corner
`(int)p0 - (int)p2 / 2` is less than one away from `p0 - p2 / 2`. -/
theorem corner_error (p0 p2 : ℚ) (h0 : 0 ≤ p0) (h2 : 0 ≤ p2)
    (h0r : p0 < 2147483648) (h2r : p2 < 2147483648) :
    |((wrapInt32 (floatToInt p0 - Int.tdiv (floatToInt p2) 2) : Int) : ℚ) - (p0 - p2 / 2)|
      < 1 := by
  obtain ⟨hA, hA0, hA1⟩ := floatToInt_of_nonneg_lt p0 h0 h0r
  obtain ⟨hB, hB0, hB1⟩ := floatToInt_of_nonneg_lt p2 h2 h2r
  rw [hA, hB]
  have hdiv : Int.tdiv ⌊p2⌋ 2 = ⌊p2⌋ / 2 := Int.tdiv_eq_ediv hB0 (by decide)
  rw [hdiv]
  have hwrap : wrapInt32 (⌊p0⌋ - ⌊p2⌋ / 2) = ⌊p0⌋ - ⌊p2⌋ / 2 := by
    apply wrapInt32_of_inRange
    · unfold INT_MAX at hB1
      unfold INT_MIN
      omega
    · unfold INT_MAX at hA1 ⊢
      omega
  rw [hwrap]
  have h1 : 2 * (⌊p2⌋ / 2) ≤ ⌊p2⌋ := by omega
  have h2i : ⌊p2⌋ ≤ 2 * (⌊p2⌋ / 2) + 1 := by omega
  have h1q : (2 : ℚ) * ((⌊p2⌋ / 2 : Int) : ℚ) ≤ (⌊p2⌋ : ℚ) := by exact_mod_cast h1
  have h2q : ((⌊p2⌋ : Int) : ℚ) ≤ 2 * ((⌊p2⌋ / 2 : Int) : ℚ) + 1 := by exact_mod_cast h2i
  have ha1 : ((⌊p0⌋ : Int) : ℚ) ≤ p0 := Int.floor_le p0
  have ha2 : p0 < (⌊p0⌋ : ℚ) + 1 := Int.lt_floor_add_one p0
  have hb1 : ((⌊p2⌋ : Int) : ℚ) ≤ p2 := Int.floor_le p2
  have hb2 : p2 < (⌊p2⌋ : ℚ) + 1 := Int.lt_floor_add_one p2
  rw [abs_lt]
  push_cast
  constructor <;> linarith

/-- The distance to an exact value `a - b / 2` exceeds the distance to the
value formed from the products by no more than the rounding errors of the
products. -/
theorem abs_sub_exact_lt (x p0 p2 a b : ℚ) (h : |x - (p0 - p2 / 2)| < 1) :
    |x - (a - b / 2)| < 1 + |p0 - a| + |p2 - b| / 2 := by
  rw [abs_lt] at h ⊢
  have h1 := le_abs_self (p0 - a)
  have h2 := neg_abs_le (p0 - a)
  have h3 := le_abs_self (p2 - b)
  have h4 := neg_abs_le (p2 - b)
  constructor <;> linarith

/-- C10, as amended: for a qualifying row with non-negative geometry channels,
a non-negative image size and float32 products below `2 ^ 31`, the top-left
corner is less than one pixel away, in each axis, from the value formed from
the float32 products that the code truncates; its distance to the exact value
is below one pixel plus the rounding errors of the two products. -/
theorem decodeRow_corner_near_float_products (imgCols imgRows : Int) (confThreshold : ℚ)
    (g0 g1 g2 g3 o : ℚ) (scores : List ℚ) (c : Candidate)
    (hg0 : 0 ≤ g0) (hg1 : 0 ≤ g1) (hg2 : 0 ≤ g2) (hg3 : 0 ≤ g3)
    (hW : 0 ≤ imgCols) (hH : 0 ≤ imgRows)
    (hp0 : mulF32 g0 imgCols < 2147483648) (hp1 : mulF32 g1 imgRows < 2147483648)
    (hp2 : mulF32 g2 imgCols < 2147483648) (hp3 : mulF32 g3 imgRows < 2147483648)
    (hq : decodeRow imgCols imgRows confThreshold (g0 :: g1 :: g2 :: g3 :: o :: scores) =
      some (some c)) :
    |(c.box.x : ℚ) - (mulF32 g0 imgCols - mulF32 g2 imgCols / 2)| < 1 ∧
    |(c.box.y : ℚ) - (mulF32 g1 imgRows - mulF32 g3 imgRows / 2)| < 1 ∧
    |(c.box.x : ℚ) - (g0 * imgCols - g2 * imgCols / 2)| <
      1 + |mulF32 g0 imgCols - g0 * imgCols| + |mulF32 g2 imgCols - g2 * imgCols| / 2 ∧
    |(c.box.y : ℚ) - (g1 * imgRows - g3 * imgRows / 2)| <
      1 + |mulF32 g1 imgRows - g1 * imgRows| + |mulF32 g3 imgRows - g3 * imgRows| / 2 := by
  obtain ⟨_, rfl⟩ := decodeRow_some_some _ _ _ _ _ _ _ _ _ _ hq
  have hx := corner_error _ _ (mulF32_nonneg g0 imgCols hg0 hW)
    (mulF32_nonneg g2 imgCols hg2 hW) hp0 hp2
  have hy := corner_error _ _ (mulF32_nonneg g1 imgRows hg1 hH)
    (mulF32_nonneg g3 imgRows hg3 hH) hp1 hp3
  exact ⟨hx, hy, abs_sub_exact_lt _ _ _ _ _ hx, abs_sub_exact_lt _ _ _ _ _ hy⟩

theorem decodeBox_three_quarters :
    decodeBox (3 / 4) (3 / 4) (1 / 4) (1 / 4) 100 100 = ⟨63, 63, 25, 25⟩ := by
  simp only [decodeBox, mulF32_three_quarters_100, mulF32_quarter_100]
  norm_num [floatToInt, truncTowardZero, wrapInt32, INT_MIN, INT_MAX, Int.tdiv]

/-- Witness for C10 as amended: centre `(75, 75)` and size `(25, 25)` pixels
on a 100 by 100 image; the computed corner is `(63, 63)`, the value formed
from the products `(62.5, 62.5)`. -/
theorem decodeRow_corner_near_float_products_witness :
    ((0 : ℚ) ≤ 3 / 4 ∧ (0 : ℚ) ≤ 1 / 4 ∧ (0 : Int) ≤ 100) ∧
    (mulF32 (3 / 4) 100 < 2147483648 ∧ mulF32 (1 / 4) 100 < 2147483648) ∧
    ∃ c, decodeRow 100 100 (1 / 2) [3 / 4, 3 / 4, 1 / 4, 1 / 4, 0, 1] = some (some c) ∧
      c.box = ⟨63, 63, 25, 25⟩ ∧
      |(c.box.x : ℚ) - (mulF32 (3 / 4) 100 - mulF32 (1 / 4) 100 / 2)| < 1 ∧
      |(c.box.y : ℚ) - (mulF32 (3 / 4) 100 - mulF32 (1 / 4) 100 / 2)| < 1 ∧
      |(c.box.x : ℚ) - (3 / 4 * ((100 : Int) : ℚ) - 1 / 4 * ((100 : Int) : ℚ) / 2)| <
        1 + |mulF32 (3 / 4) 100 - 3 / 4 * ((100 : Int) : ℚ)| +
          |mulF32 (1 / 4) 100 - 1 / 4 * ((100 : Int) : ℚ)| / 2 ∧
      |(c.box.y : ℚ) - (3 / 4 * ((100 : Int) : ℚ) - 1 / 4 * ((100 : Int) : ℚ) / 2)| <
        1 + |mulF32 (3 / 4) 100 - 3 / 4 * ((100 : Int) : ℚ)| +
          |mulF32 (1 / 4) 100 - 1 / 4 * ((100 : Int) : ℚ)| / 2 :=
  have hq : decodeRow 100 100 (1 / 2) [3 / 4, 3 / 4, 1 / 4, 1 / 4, 0, 1] =
      some (some { box := ⟨63, 63, 25, 25⟩, classId := 0, confidence := 1 }) := by
    rw [decodeRow_channels, decodeBox_three_quarters]
    norm_num [minMaxLoc]
  have hc : (0 : ℚ) ≤ 3 / 4 := by norm_num
  have hs : (0 : ℚ) ≤ 1 / 4 := by norm_num
  have hn : (0 : Int) ≤ 100 := by decide
  have hpc : mulF32 (3 / 4) 100 < 2147483648 := by
    rw [mulF32_three_quarters_100]
    norm_num
  have hps : mulF32 (1 / 4) 100 < 2147483648 := by
    rw [mulF32_quarter_100]
    norm_num
  ⟨⟨hc, hs, hn⟩, ⟨hpc, hps⟩, _, hq, rfl,
    decodeRow_corner_near_float_products 100 100 (1 / 2) (3 / 4) (3 / 4) (1 / 4) (1 / 4) 0 [1]
      _ hc hc hs hs hn hn hpc hpc hps hps hq⟩

theorem decodeBox_078f :
    decodeBox (3271557 / 4194304) (3271557 / 4194304) (10737417 / 536870912)
      (10737417 / 536870912) 100 100 = ⟨78, 78, 1, 1⟩ := by
  simp only [decodeBox, mulF32_078f_100, mulF32_below_002f_100]
  norm_num [floatToInt, truncTowardZero, wrapInt32, INT_MIN, INT_MAX, Int.tdiv]

/-- C10, counterexample: with the float32 channels `0.78f` (centre) and the
float32 just below `0.02f` (size) on a 100 by 100 image the float32 products
are 78 and `1.9999997...`, so the computed corner is `78 - 1 / 2 = 78`, while
the exact corner is `76.99999725...`: the distance is above 1. -/
theorem decodeRow_corner_off_by_more_than_one :
    ((0 : ℚ) ≤ 3271557 / 4194304 ∧ (0 : ℚ) ≤ 10737417 / 536870912 ∧ (0 : Int) ≤ 100) ∧
    ∃ c, decodeRow 100 100 (1 / 2)
        [3271557 / 4194304, 3271557 / 4194304, 10737417 / 536870912, 10737417 / 536870912,
          0, 1] = some (some c) ∧
      c.box.x = 78 ∧
      ¬ |(c.box.x : ℚ) - (3271557 / 4194304 * ((100 : Int) : ℚ) -
          10737417 / 536870912 * ((100 : Int) : ℚ) / 2)| < 1 := by
  refine ⟨⟨by norm_num, by norm_num, by decide⟩,
    { box := ⟨78, 78, 1, 1⟩, classId := 0, confidence := 1 }, ?_, rfl, ?_⟩
  · rw [decodeRow_channels, decodeBox_078f]
    norm_num [minMaxLoc]
  · norm_num [abs_lt]

/-- C5, as amended: with the float32 products in place of the exact ones, the
rectangle of a qualifying row has the truncated products as its size, and its
corner is the truncated centre product less half the truncated size product,
the half taken by integer division toward zero, whenever the truncated
products and the two differences fit the 32-bit `int`. -/
theorem decodeRow_box_two_step (imgCols imgRows : Int) (confThreshold : ℚ)
    (g0 g1 g2 g3 o : ℚ) (scores : List ℚ) (c : Candidate)
    (h0 : InIntRange (truncTowardZero (mulF32 g0 imgCols)))
    (h1 : InIntRange (truncTowardZero (mulF32 g1 imgRows)))
    (h2 : InIntRange (truncTowardZero (mulF32 g2 imgCols)))
    (h3 : InIntRange (truncTowardZero (mulF32 g3 imgRows)))
    (hx : InIntRange (truncTowardZero (mulF32 g0 imgCols) -
      Int.tdiv (truncTowardZero (mulF32 g2 imgCols)) 2))
    (hy : InIntRange (truncTowardZero (mulF32 g1 imgRows) -
      Int.tdiv (truncTowardZero (mulF32 g3 imgRows)) 2))
    (hq : decodeRow imgCols imgRows confThreshold (g0 :: g1 :: g2 :: g3 :: o :: scores) =
      some (some c)) :
    c.box.width = truncTowardZero (mulF32 g2 imgCols) ∧
    c.box.height = truncTowardZero (mulF32 g3 imgRows) ∧
    c.box.x = truncTowardZero (mulF32 g0 imgCols) -
      Int.tdiv (truncTowardZero (mulF32 g2 imgCols)) 2 ∧
    c.box.y = truncTowardZero (mulF32 g1 imgRows) -
      Int.tdiv (truncTowardZero (mulF32 g3 imgRows)) 2 := by
  obtain ⟨_, rfl⟩ := decodeRow_some_some _ _ _ _ _ _ _ _ _ _ hq
  have e0 := floatToInt_of_inRange _ h0.1 h0.2
  have e1 := floatToInt_of_inRange _ h1.1 h1.2
  have e2 := floatToInt_of_inRange _ h2.1 h2.2
  have e3 := floatToInt_of_inRange _ h3.1 h3.2
  refine ⟨e2, e3, ?_, ?_⟩
  · show wrapInt32 (floatToInt (mulF32 g0 imgCols) -
        Int.tdiv (floatToInt (mulF32 g2 imgCols)) 2) = _
    rw [e0, e2]
    exact wrapInt32_of_inRange _ hx.1 hx.2
  · show wrapInt32 (floatToInt (mulF32 g1 imgRows) -
        Int.tdiv (floatToInt (mulF32 g3 imgRows)) 2) = _
    rw [e1, e3]
    exact wrapInt32_of_inRange _ hy.1 hy.2

theorem decodeBox_029f :
    decodeBox (1 / 2) (1 / 2) (9730785 / 33554432) (1 / 4) 100 100 = ⟨36, 38, 29, 25⟩ := by
  simp only [decodeBox, mulF32_half_100, mulF32_029f_100, mulF32_quarter_100]
  norm_num [floatToInt, truncTowardZero, wrapInt32, INT_MIN, INT_MAX, Int.tdiv]

/-- Witness for C5 as amended: centre `(50, 50)` pixels, width channel `0.29f`
(float32 product 29) and height 25 pixels on a 100 by 100 image. -/
theorem decodeRow_box_two_step_witness :
    (InIntRange (truncTowardZero (mulF32 (1 / 2) 100)) ∧
      InIntRange (truncTowardZero (mulF32 (9730785 / 33554432) 100)) ∧
      InIntRange (truncTowardZero (mulF32 (1 / 4) 100)) ∧
      InIntRange (truncTowardZero (mulF32 (1 / 2) 100) -
        Int.tdiv (truncTowardZero (mulF32 (9730785 / 33554432) 100)) 2) ∧
      InIntRange (truncTowardZero (mulF32 (1 / 2) 100) -
        Int.tdiv (truncTowardZero (mulF32 (1 / 4) 100)) 2)) ∧
    ∃ c, decodeRow 100 100 (1 / 2) [1 / 2, 1 / 2, 9730785 / 33554432, 1 / 4, 0, 1] =
        some (some c) ∧
      c.box = ⟨36, 38, 29, 25⟩ ∧
      c.box.width = truncTowardZero (mulF32 (9730785 / 33554432) 100) ∧
      c.box.height = truncTowardZero (mulF32 (1 / 4) 100) ∧
      c.box.x = truncTowardZero (mulF32 (1 / 2) 100) -
        Int.tdiv (truncTowardZero (mulF32 (9730785 / 33554432) 100)) 2 ∧
      c.box.y = truncTowardZero (mulF32 (1 / 2) 100) -
        Int.tdiv (truncTowardZero (mulF32 (1 / 4) 100)) 2 :=
  have hq : decodeRow 100 100 (1 / 2) [1 / 2, 1 / 2, 9730785 / 33554432, 1 / 4, 0, 1] =
      some (some { box := ⟨36, 38, 29, 25⟩, classId := 0, confidence := 1 }) := by
    rw [decodeRow_channels, decodeBox_029f]
    norm_num [minMaxLoc]
  have h0 : InIntRange (truncTowardZero (mulF32 (1 / 2) 100)) := by
    rw [mulF32_half_100]
    norm_num [InIntRange, truncTowardZero, INT_MIN, INT_MAX]
  have h2 : InIntRange (truncTowardZero (mulF32 (9730785 / 33554432) 100)) := by
    rw [mulF32_029f_100]
    norm_num [InIntRange, truncTowardZero, INT_MIN, INT_MAX]
  have h3 : InIntRange (truncTowardZero (mulF32 (1 / 4) 100)) := by
    rw [mulF32_quarter_100]
    norm_num [InIntRange, truncTowardZero, INT_MIN, INT_MAX]
  have hx : InIntRange (truncTowardZero (mulF32 (1 / 2) 100) -
      Int.tdiv (truncTowardZero (mulF32 (9730785 / 33554432) 100)) 2) := by
    rw [mulF32_half_100, mulF32_029f_100]
    norm_num [InIntRange, truncTowardZero, INT_MIN, INT_MAX, Int.tdiv]
  have hy : InIntRange (truncTowardZero (mulF32 (1 / 2) 100) -
      Int.tdiv (truncTowardZero (mulF32 (1 / 4) 100)) 2) := by
    rw [mulF32_half_100, mulF32_quarter_100]
    norm_num [InIntRange, truncTowardZero, INT_MIN, INT_MAX, Int.tdiv]
  ⟨⟨h0, h2, h3, hx, hy⟩, _, hq, rfl,
    decodeRow_box_two_step 100 100 (1 / 2) (1 / 2) (1 / 2) (9730785 / 33554432) (1 / 4) 0 [1]
      _ h0 h0 h2 h3 hx hy hq⟩

/-- C5, counterexample: on a 100 by 100 image, centre channels `0.5`, width
channel `0.29f` and height channel `0.25` give the rectangle
`{x: 36, y: 38, width: 29, height: 25}`. The width is the truncated float32
product 29, while truncating the exact product `28.99999916...` gives 28; the
top is `50 - 25 / 2 = 38`, while truncating the exact `50 - 12.5` gives 37. -/
theorem decodeRow_box_not_exact_truncation :
    ∃ c, decodeRow 100 100 (1 / 2) [1 / 2, 1 / 2, 9730785 / 33554432, 1 / 4, 0, 1] =
        some (some c) ∧
      c.box = ⟨36, 38, 29, 25⟩ ∧
      truncTowardZero (9730785 / 33554432 * ((100 : Int) : ℚ)) = 28 ∧
      c.box.width ≠ truncTowardZero (9730785 / 33554432 * ((100 : Int) : ℚ)) ∧
      truncTowardZero (1 / 2 * ((100 : Int) : ℚ) - 1 / 4 * ((100 : Int) : ℚ) / 2) = 37 ∧
      c.box.y ≠ truncTowardZero (1 / 2 * ((100 : Int) : ℚ) - 1 / 4 * ((100 : Int) : ℚ) / 2) := by
  have hw : truncTowardZero (9730785 / 33554432 * ((100 : Int) : ℚ)) = 28 := by
    norm_num [truncTowardZero]
  have hy : truncTowardZero (1 / 2 * ((100 : Int) : ℚ) - 1 / 4 * ((100 : Int) : ℚ) / 2) = 37 := by
    norm_num [truncTowardZero]
  refine ⟨{ box := ⟨36, 38, 29, 25⟩, classId := 0, confidence := 1 }, ?_, rfl, hw, ?_, hy, ?_⟩
  · rw [decodeRow_channels, decodeBox_029f]
    norm_num [minMaxLoc]
  · rw [hw]
    decide
  · rw [hy]
    decide

/-- C6, as amended: a qualifying row with centre `(0.5, 0.5)` and size
`(0.2, 0.4)` on a 100 by 200 image yields the rectangle
`{x: 40, y: 60, width: 20, height: 80}`. -/
theorem scenario5_geometry (confThreshold o : ℚ) (scores : List ℚ) (c : Candidate)
    (hq : decodeRow 100 200 confThreshold (1 / 2 :: 1 / 2 :: 1 / 5 :: 2 / 5 :: o :: scores) =
      some (some c)) :
    c.box = { x := 40, y := 60, width := 20, height := 80 } := by
  obtain ⟨_, rfl⟩ := decodeRow_some_some _ _ _ _ _ _ _ _ _ _ hq
  exact decodeBox_scenario5

/-- Witness for C6 as amended. -/
theorem scenario5_geometry_witness :
    ∃ c, decodeRow 100 200 (1 / 2) [1 / 2, 1 / 2, 1 / 5, 2 / 5, 0, 1 / 10, 9 / 10] =
        some (some c) ∧
      c.box = { x := 40, y := 60, width := 20, height := 80 } :=
  have hq : decodeRow 100 200 (1 / 2) [1 / 2, 1 / 2, 1 / 5, 2 / 5, 0, 1 / 10, 9 / 10] =
      some (some { box := ⟨40, 60, 20, 80⟩, classId := 1, confidence := 9 / 10 }) := by
    rw [decodeRow_channels, decodeBox_scenario5]
    norm_num [minMaxLoc]
  ⟨_, hq, scenario5_geometry (1 / 2) 0 [1 / 10, 9 / 10] _ hq⟩

/-- C6, counterexample: the rectangle of scenario 5 has `y = 60`, not 50. -/
theorem scenario5_geometry_not_y50 :
    ∃ c, decodeRow 100 200 (1 / 2) [1 / 2, 1 / 2, 1 / 5, 2 / 5, 0, 1 / 10, 9 / 10] =
        some (some c) ∧
      c.box.y = 60 ∧ c.box ≠ { x := 40, y := 50, width := 20, height := 80 } := by
  refine ⟨{ box := ⟨40, 60, 20, 80⟩, classId := 1, confidence := 9 / 10 }, ?_, rfl, by decide⟩
  rw [decodeRow_channels, decodeBox_scenario5]
  norm_num [minMaxLoc]

/-! ## The suppressor -/

theorem suppressLoop_nil (bboxes : List Rect) (nmsThreshold : ℚ) :
    suppressLoop bboxes nmsThreshold [] = [] := by
  rw [suppressLoop]

theorem suppressLoop_cons (bboxes : List Rect) (nmsThreshold : ℚ) (i : Nat) (rest : List Nat) :
    suppressLoop bboxes nmsThreshold (i :: rest) =
      i :: suppressLoop bboxes nmsThreshold
        (rest.filter (fun j => decide (iou (boxAt bboxes j) (boxAt bboxes i) ≤ nmsThreshold))) := by
  rw [suppressLoop]

theorem suppressLoop_sublist (bboxes : List Rect) (nmsThreshold : ℚ) :
    ∀ (n : Nat) (l : List Nat), l.length ≤ n → (suppressLoop bboxes nmsThreshold l).Sublist l
  | _, [], _ => by rw [suppressLoop_nil]
  | 0, _ :: _, h => by simp at h
  | n + 1, i :: rest, h => by
    rw [suppressLoop_cons]
    have hlen : (rest.filter (fun j =>
        decide (iou (boxAt bboxes j) (boxAt bboxes i) ≤ nmsThreshold))).length ≤ n :=
      le_trans (List.length_filter_le _ _) (by simpa using h)
    exact ((suppressLoop_sublist bboxes nmsThreshold n _ hlen).trans
      (List.filter_sublist rest)).cons₂ i

theorem suppressLoop_pairwise (bboxes : List Rect) (nmsThreshold : ℚ) :
    ∀ (n : Nat) (l : List Nat), l.length ≤ n →
      (suppressLoop bboxes nmsThreshold l).Pairwise
        (fun i j => iou (boxAt bboxes j) (boxAt bboxes i) ≤ nmsThreshold)
  | _, [], _ => by
    rw [suppressLoop_nil]
    exact List.Pairwise.nil
  | 0, _ :: _, h => by simp at h
  | n + 1, i :: rest, h => by
    rw [suppressLoop_cons]
    have hlen : (rest.filter (fun j =>
        decide (iou (boxAt bboxes j) (boxAt bboxes i) ≤ nmsThreshold))).length ≤ n :=
      le_trans (List.length_filter_le _ _) (by simpa using h)
    refine List.Pairwise.cons ?_ (suppressLoop_pairwise bboxes nmsThreshold n _ hlen)
    intro j hj
    have hj1 := (suppressLoop_sublist bboxes nmsThreshold n _ hlen).subset hj
    have hj2 := (List.mem_filter.mp hj1).2
    exact of_decide_eq_true hj2

theorem interArea_comm (a b : Rect) : interArea a b = interArea b a := by
  simp only [interArea, min_comm, max_comm]

theorem iou_comm (a b : Rect) : iou a b = iou b a := by
  simp only [iou, interArea_comm a b, add_comm a.area b.area]

theorem mem_sortedIndices (scores : List ℚ) (scoreThreshold : ℚ) (i : Nat)
    (hi : i ∈ sortedIndices scores scoreThreshold) :
    ∃ s, scores[i]? = some s ∧ scoreThreshold < s := by
  simp only [sortedIndices, List.mem_map] at hi
  obtain ⟨p, hp, rfl⟩ := hi
  rw [List.mem_insertionSort, List.mem_filter] at hp
  exact ⟨p.2, List.mem_enum_iff_getElem?.mp hp.1, of_decide_eq_true hp.2⟩

theorem sortedIndices_of_all_gt (scores : List ℚ) (scoreThreshold : ℚ)
    (h : ∀ s ∈ scores, scoreThreshold < s) :
    sortedIndices scores scoreThreshold =
      ((scores.enum).insertionSort (fun p q => q.2 ≤ p.2)).map Prod.fst := by
  rw [sortedIndices, List.filter_eq_self.mpr]
  intro p hp
  exact decide_eq_true (h p.2 (List.snd_mem_of_mem_enum hp))

theorem mem_NMSBoxes (bboxes : List Rect) (scores : List ℚ) (scoreThreshold nmsThreshold : ℚ)
    (i : Nat) (hi : i ∈ NMSBoxes bboxes scores scoreThreshold nmsThreshold) :
    ∃ s, scores[i]? = some s ∧ scoreThreshold < s :=
  mem_sortedIndices scores scoreThreshold i
    ((suppressLoop_sublist bboxes nmsThreshold _ _ (le_refl _)).subset hi)

theorem mem_keptIndices_lt (cands : List Candidate) (confThreshold nmsThreshold : ℚ) (i : Nat)
    (hi : i ∈ keptIndices cands confThreshold nmsThreshold) : i < cands.length := by
  obtain ⟨s, hs, _⟩ := mem_NMSBoxes _ _ _ _ i hi
  by_contra hlt
  rw [List.getElem?_eq_none (by simpa using hlt)] at hs
  simp at hs

/-- C2: any two distinct candidates that survive the suppression step have
rectangles whose IoU is at most `nmsThreshold`. -/
theorem kept_boxes_separated (cands : List Candidate) (confThreshold nmsThreshold : ℚ)
    (i j : Nat) (a b : Candidate)
    (hi : i ∈ keptIndices cands confThreshold nmsThreshold)
    (hj : j ∈ keptIndices cands confThreshold nmsThreshold)
    (hij : i ≠ j) (ha : cands[i]? = some a) (hb : cands[j]? = some b) :
    iou a.box b.box ≤ nmsThreshold := by
  have hpw := suppressLoop_pairwise (cands.map (fun c => c.box)) nmsThreshold _
    (sortedIndices (cands.map (fun c => c.confidence)) confThreshold) (le_refl _)
  have hsymm : Symmetric (fun i j : Nat =>
      iou (boxAt (cands.map (fun c => c.box)) j) (boxAt (cands.map (fun c => c.box)) i)
        ≤ nmsThreshold) := by
    intro p q hpq
    rw [iou_comm]
    exact hpq
  have h := List.Pairwise.forall hsymm hpw hj hi (Ne.symm hij)
  have hA : boxAt (cands.map (fun c => c.box)) i = a.box := by
    simp [boxAt, List.getD_eq_getElem?_getD, List.getElem?_map, ha]
  have hB : boxAt (cands.map (fun c => c.box)) j = b.box := by
    simp [boxAt, List.getD_eq_getElem?_getD, List.getElem?_map, hb]
  rw [hA, hB] at h
  exact h


/-- Witness for C2: three candidates, the second suppressed by the first, the
first and the third kept. -/
theorem kept_boxes_separated_witness :
    0 ∈ keptIndices [⟨⟨0, 0, 10, 10⟩, 0, 9 / 10⟩, ⟨⟨0, 0, 10, 9⟩, 0, 4 / 5⟩,
      ⟨⟨5, 5, 10, 10⟩, 1, 7 / 10⟩] (1 / 2) (1 / 2) ∧
    2 ∈ keptIndices [⟨⟨0, 0, 10, 10⟩, 0, 9 / 10⟩, ⟨⟨0, 0, 10, 9⟩, 0, 4 / 5⟩,
      ⟨⟨5, 5, 10, 10⟩, 1, 7 / 10⟩] (1 / 2) (1 / 2) ∧
    iou (⟨⟨0, 0, 10, 10⟩, 0, 9 / 10⟩ : Candidate).box
      (⟨⟨5, 5, 10, 10⟩, 1, 7 / 10⟩ : Candidate).box ≤ 1 / 2 :=
  have hk : keptIndices [⟨⟨0, 0, 10, 10⟩, 0, 9 / 10⟩, ⟨⟨0, 0, 10, 9⟩, 0, 4 / 5⟩,
      ⟨⟨5, 5, 10, 10⟩, 1, 7 / 10⟩] (1 / 2) (1 / 2) = [0, 2] := by
    norm_num [keptIndices, NMSBoxes, sortedIndices, List.enum, List.enumFrom, List.filter,
      List.insertionSort, List.orderedInsert, suppressLoop_cons, suppressLoop_nil, boxAt, iou,
      interArea, Rect.area]
  have h0 : 0 ∈ keptIndices [⟨⟨0, 0, 10, 10⟩, 0, 9 / 10⟩, ⟨⟨0, 0, 10, 9⟩, 0, 4 / 5⟩,
      ⟨⟨5, 5, 10, 10⟩, 1, 7 / 10⟩] (1 / 2) (1 / 2) := by
    rw [hk]
    decide
  have h2 : 2 ∈ keptIndices [⟨⟨0, 0, 10, 10⟩, 0, 9 / 10⟩, ⟨⟨0, 0, 10, 9⟩, 0, 4 / 5⟩,
      ⟨⟨5, 5, 10, 10⟩, 1, 7 / 10⟩] (1 / 2) (1 / 2) := by
    rw [hk]
    decide
  ⟨h0, h2, kept_boxes_separated _ (1 / 2) (1 / 2) 0 2 _ _ h0 h2 (by decide) rfl rfl⟩

theorem assemble_cons (cands : List Candidate) (it : Nat) (rest : List Nat)
    (bBoxes : List BoundingBox) (c : Candidate) (hc : cands[it]? = some c) :
    assemble cands (it :: rest) bBoxes =
      assemble cands rest
        (bBoxes ++ [{ boxID := bBoxes.length, roi := c.box, classID := c.classId,
                      confidence := c.confidence }]) := by
  rw [assemble, hc]

/-- C7: two candidates above `confThreshold` with different confidences and
rectangles overlapping beyond `nmsThreshold` leave exactly one box, the one of
higher confidence, appended to `bBoxes`; the class ids play no part in which
indices are kept. -/
theorem joint_suppression_of_two (c1 c2 : Candidate) (bBoxes : List BoundingBox)
    (confThreshold nmsThreshold : ℚ)
    (h1 : confThreshold < c1.confidence) (h2 : confThreshold < c2.confidence)
    (hne : c1.confidence ≠ c2.confidence) (hiou : nmsThreshold < iou c1.box c2.box) :
    suppressAndAssemble [c1, c2] bBoxes confThreshold nmsThreshold =
      some (bBoxes ++ [if c2.confidence < c1.confidence then
          { boxID := bBoxes.length, roi := c1.box, classID := c1.classId,
            confidence := c1.confidence }
        else
          { boxID := bBoxes.length, roi := c2.box, classID := c2.classId,
            confidence := c2.confidence }]) ∧
    ∀ id1 id2 : Int,
      keptIndices [{ c1 with classId := id1 }, { c2 with classId := id2 }]
          confThreshold nmsThreshold =
        keptIndices [c1, c2] confThreshold nmsThreshold := by
  refine ⟨?_, fun id1 id2 => rfl⟩
  have hiou21 : ¬ iou c2.box c1.box ≤ nmsThreshold := by
    rw [iou_comm]
    exact not_le.mpr hiou
  have hiou12 : ¬ iou c1.box c2.box ≤ nmsThreshold := not_le.mpr hiou
  by_cases hlt : c2.confidence < c1.confidence
  · have hk : keptIndices [c1, c2] confThreshold nmsThreshold = [0] := by
      simp [keptIndices, NMSBoxes, sortedIndices, List.enum, List.enumFrom, List.filter, h1, h2,
        List.insertionSort, List.orderedInsert, le_of_lt hlt, suppressLoop_cons,
        suppressLoop_nil, boxAt, hiou21]
    simp [suppressAndAssemble, hk, assemble, hlt]
  · have hlt12 : c1.confidence < c2.confidence :=
      lt_of_le_of_ne (not_lt.mp hlt) hne
    have hk : keptIndices [c1, c2] confThreshold nmsThreshold = [1] := by
      simp [keptIndices, NMSBoxes, sortedIndices, List.enum, List.enumFrom, List.filter, h1, h2,
        List.insertionSort, List.orderedInsert, not_le.mpr hlt12, suppressLoop_cons,
        suppressLoop_nil, boxAt, hiou12]
    simp [suppressAndAssemble, hk, assemble, hlt]

/-- Witness for C7 on scenario 3: two candidates of different classes with IoU
`0.9` and `nmsThreshold = 0.5`. -/
theorem joint_suppression_of_two_witness :
    ((1 / 4 : ℚ) < (⟨⟨0, 0, 10, 10⟩, 3, 1 / 2⟩ : Candidate).confidence) ∧
    ((1 / 4 : ℚ) < (⟨⟨0, 0, 10, 9⟩, 7, 3 / 5⟩ : Candidate).confidence) ∧
    iou (⟨⟨0, 0, 10, 10⟩, 3, 1 / 2⟩ : Candidate).box (⟨⟨0, 0, 10, 9⟩, 7, 3 / 5⟩ : Candidate).box
      = 9 / 10 ∧
    suppressAndAssemble [⟨⟨0, 0, 10, 10⟩, 3, 1 / 2⟩, ⟨⟨0, 0, 10, 9⟩, 7, 3 / 5⟩] [] (1 / 4) (1 / 2) =
      some [{ boxID := 0, roi := ⟨0, 0, 10, 9⟩, classID := 7, confidence := 3 / 5 }] :=
  have hiou : iou (⟨⟨0, 0, 10, 10⟩, 3, 1 / 2⟩ : Candidate).box
      (⟨⟨0, 0, 10, 9⟩, 7, 3 / 5⟩ : Candidate).box = 9 / 10 := by
    norm_num [iou, interArea, Rect.area]
  have h1 : (1 / 4 : ℚ) < (⟨⟨0, 0, 10, 10⟩, 3, 1 / 2⟩ : Candidate).confidence := by norm_num
  have h2 : (1 / 4 : ℚ) < (⟨⟨0, 0, 10, 9⟩, 7, 3 / 5⟩ : Candidate).confidence := by norm_num
  have hmain := (joint_suppression_of_two ⟨⟨0, 0, 10, 10⟩, 3, 1 / 2⟩ ⟨⟨0, 0, 10, 9⟩, 7, 3 / 5⟩ []
    (1 / 4) (1 / 2) h1 h2 (by norm_num) (by rw [hiou]; norm_num)).1
  ⟨h1, h2, hiou, by
    rw [hmain]
    norm_num⟩


/-! ## The scan loops -/

theorem decodeRow_ne_none (imgCols imgRows : Int) (confThreshold : ℚ) (data : List ℚ)
    (h : 5 ≤ data.length) : decodeRow imgCols imgRows confThreshold data ≠ none := by
  match data, h with
  | d0 :: d1 :: d2 :: d3 :: o :: scores, _ =>
    rw [decodeRow_channels]
    split_ifs <;> simp

theorem decodeRow_eq_none (imgCols imgRows : Int) (confThreshold : ℚ) (data : List ℚ)
    (h : data.length < 5) : decodeRow imgCols imgRows confThreshold data = none := by
  match data, h with
  | [], _ => rfl
  | [_], _ => rfl
  | [_, _], _ => rfl
  | [_, _, _], _ => rfl
  | [_, _, _, _], _ => rfl
  | _ :: _ :: _ :: _ :: _ :: _, h => simp at h; omega

theorem scanRows_cons (imgCols imgRows : Int) (confThreshold : ℚ) (data : List ℚ)
    (rest : List (List ℚ)) (acc : List Candidate) :
    scanRows imgCols imgRows confThreshold (data :: rest) acc =
      match decodeRow imgCols imgRows confThreshold data with
      | none => none
      | some none => scanRows imgCols imgRows confThreshold rest acc
      | some (some c) => scanRows imgCols imgRows confThreshold rest (acc ++ [c]) := by
  rw [scanRows]

theorem scanRows_spec (imgCols imgRows : Int) (confThreshold : ℚ) :
    ∀ (rows : List (List ℚ)) (acc out : List Candidate),
      scanRows imgCols imgRows confThreshold rows acc = some out →
      ∃ new, out = acc ++ new ∧
        ∀ c ∈ new, ∃ data ∈ rows, decodeRow imgCols imgRows confThreshold data = some (some c)
  | [], acc, out, h => by
    simp only [scanRows, Option.some.injEq] at h
    exact ⟨[], by simp [h], by simp⟩
  | data :: rest, acc, out, h => by
    rw [scanRows_cons] at h
    cases hd : decodeRow imgCols imgRows confThreshold data with
    | none => simp [hd] at h
    | some r =>
      cases r with
      | none =>
        simp only [hd] at h
        obtain ⟨new, hnew, hall⟩ := scanRows_spec imgCols imgRows confThreshold rest acc out h
        exact ⟨new, hnew, fun c hc =>
          let ⟨d, hdm, hdd⟩ := hall c hc
          ⟨d, List.mem_cons_of_mem _ hdm, hdd⟩⟩
      | some c0 =>
        simp only [hd] at h
        obtain ⟨new, hnew, hall⟩ :=
          scanRows_spec imgCols imgRows confThreshold rest (acc ++ [c0]) out h
        refine ⟨c0 :: new, by simp [hnew], fun c hc => ?_⟩
        rcases List.mem_cons.mp hc with hc1 | hc1
        · exact ⟨data, List.mem_cons_self _ _, by rw [hd, hc1]⟩
        · obtain ⟨d, hdm, hdd⟩ := hall c hc1
          exact ⟨d, List.mem_cons_of_mem _ hdm, hdd⟩

theorem scanRows_isSome (imgCols imgRows : Int) (confThreshold : ℚ) :
    ∀ (rows : List (List ℚ)) (acc : List Candidate), (∀ data ∈ rows, 5 ≤ data.length) →
      ∃ out, scanRows imgCols imgRows confThreshold rows acc = some out
  | [], acc, _ => ⟨acc, rfl⟩
  | data :: rest, acc, h => by
    rw [scanRows_cons]
    have hne := decodeRow_ne_none imgCols imgRows confThreshold data
      (h data (List.mem_cons_self _ _))
    have hrest : ∀ d ∈ rest, 5 ≤ d.length := fun d hd => h d (List.mem_cons_of_mem _ hd)
    cases hd : decodeRow imgCols imgRows confThreshold data with
    | none => exact absurd hd hne
    | some r =>
      cases r with
      | none => exact scanRows_isSome imgCols imgRows confThreshold rest acc hrest
      | some c0 => exact scanRows_isSome imgCols imgRows confThreshold rest (acc ++ [c0]) hrest

theorem scanRows_none_qualify (imgCols imgRows : Int) (confThreshold : ℚ) :
    ∀ (rows : List (List ℚ)) (acc : List Candidate),
      (∀ data ∈ rows, decodeRow imgCols imgRows confThreshold data = some none) →
      scanRows imgCols imgRows confThreshold rows acc = some acc
  | [], _, _ => rfl
  | data :: rest, acc, h => by
    rw [scanRows_cons, h data (List.mem_cons_self _ _)]
    exact scanRows_none_qualify imgCols imgRows confThreshold rest acc
      (fun d hd => h d (List.mem_cons_of_mem _ hd))

theorem scanOutputs_cons (imgCols imgRows : Int) (confThreshold : ℚ) (m : Mat)
    (rest : List Mat) (acc : List Candidate) :
    scanOutputs imgCols imgRows confThreshold (m :: rest) acc =
      match scanRows imgCols imgRows confThreshold m acc with
      | none => none
      | some acc1 => scanOutputs imgCols imgRows confThreshold rest acc1 := by
  rw [scanOutputs]

theorem scanOutputs_spec (imgCols imgRows : Int) (confThreshold : ℚ) :
    ∀ (netOutput : List Mat) (acc out : List Candidate),
      scanOutputs imgCols imgRows confThreshold netOutput acc = some out →
      ∃ new, out = acc ++ new ∧
        ∀ c ∈ new, ∃ m ∈ netOutput, ∃ data ∈ m,
          decodeRow imgCols imgRows confThreshold data = some (some c)
  | [], acc, out, h => by
    simp only [scanOutputs, Option.some.injEq] at h
    exact ⟨[], by simp [h], by simp⟩
  | m :: rest, acc, out, h => by
    rw [scanOutputs_cons] at h
    cases hm : scanRows imgCols imgRows confThreshold m acc with
    | none => simp [hm] at h
    | some acc1 =>
      simp only [hm] at h
      obtain ⟨new1, hnew1, hall1⟩ := scanRows_spec imgCols imgRows confThreshold m acc acc1 hm
      obtain ⟨new2, hnew2, hall2⟩ :=
        scanOutputs_spec imgCols imgRows confThreshold rest acc1 out h
      refine ⟨new1 ++ new2, by simp [hnew2, hnew1], fun c hc => ?_⟩
      rcases List.mem_append.mp hc with hc1 | hc1
      · obtain ⟨d, hdm, hdd⟩ := hall1 c hc1
        exact ⟨m, List.mem_cons_self _ _, d, hdm, hdd⟩
      · obtain ⟨m2, hm2, d, hdm, hdd⟩ := hall2 c hc1
        exact ⟨m2, List.mem_cons_of_mem _ hm2, d, hdm, hdd⟩

theorem scanOutputs_isSome (imgCols imgRows : Int) (confThreshold : ℚ) :
    ∀ (netOutput : List Mat) (acc : List Candidate),
      (∀ m ∈ netOutput, ∀ data ∈ m, 5 ≤ data.length) →
      ∃ out, scanOutputs imgCols imgRows confThreshold netOutput acc = some out
  | [], acc, _ => ⟨acc, rfl⟩
  | m :: rest, acc, h => by
    rw [scanOutputs_cons]
    obtain ⟨acc1, hacc1⟩ := scanRows_isSome imgCols imgRows confThreshold m acc
      (h m (List.mem_cons_self _ _))
    rw [hacc1]
    exact scanOutputs_isSome imgCols imgRows confThreshold rest acc1
      (fun m2 hm2 => h m2 (List.mem_cons_of_mem _ hm2))

theorem scanOutputs_none_qualify (imgCols imgRows : Int) (confThreshold : ℚ) :
    ∀ (netOutput : List Mat) (acc : List Candidate),
      (∀ m ∈ netOutput, ∀ data ∈ m,
        decodeRow imgCols imgRows confThreshold data = some none) →
      scanOutputs imgCols imgRows confThreshold netOutput acc = some acc
  | [], _, _ => rfl
  | m :: rest, acc, h => by
    rw [scanOutputs_cons,
      scanRows_none_qualify imgCols imgRows confThreshold m acc (h m (List.mem_cons_self _ _))]
    exact scanOutputs_none_qualify imgCols imgRows confThreshold rest acc
      (fun m2 hm2 => h m2 (List.mem_cons_of_mem _ hm2))

/-- Every score that the scan loop stores is above `confThreshold`, so the
score filter of the suppressor passes every stored candidate. -/
theorem scanOutputs_conf_gt (imgCols imgRows : Int) (confThreshold : ℚ) (netOutput : List Mat)
    (cands : List Candidate)
    (h : scanOutputs imgCols imgRows confThreshold netOutput [] = some cands) :
    ∀ c ∈ cands, confThreshold < c.confidence := by
  obtain ⟨new, hnew, hall⟩ := scanOutputs_spec imgCols imgRows confThreshold netOutput [] cands h
  intro c hc
  rw [hnew, List.nil_append] at hc
  obtain ⟨m, _, data, _, hd⟩ := hall c hc
  match data, hd with
  | d0 :: d1 :: d2 :: d3 :: o :: scores, hd =>
    obtain ⟨hgt, rfl⟩ := decodeRow_some_some _ _ _ _ _ _ _ _ _ _ hd
    exact hgt
  | [], hd => simp [decodeRow] at hd
  | [_], hd => simp [decodeRow] at hd
  | [_, _], hd => simp [decodeRow] at hd
  | [_, _, _], hd => simp [decodeRow] at hd
  | [_, _, _, _], hd => simp [decodeRow] at hd

/-! ## The assembler -/

theorem assemble_spec (cands : List Candidate) :
    ∀ (indices : List Nat) (bBoxes : List BoundingBox), (∀ it ∈ indices, it < cands.length) →
      ∃ new, assemble cands indices bBoxes = some (bBoxes ++ new) ∧
        new.length = indices.length ∧
        ∀ k b, new[k]? = some b →
          b.boxID = ((bBoxes.length + k : Nat) : Int) ∧
          ∃ it c, indices[k]? = some it ∧ cands[it]? = some c ∧
            b.roi = c.box ∧ b.classID = c.classId ∧ b.confidence = c.confidence
  | [], bBoxes, _ => ⟨[], by simp [assemble], rfl, by simp⟩
  | it :: rest, bBoxes, h => by
    have hit : it < cands.length := h it (List.mem_cons_self _ _)
    have hc : cands[it]? = some cands[it] := List.getElem?_eq_getElem hit
    obtain ⟨new, hnew, hlen, hall⟩ := assemble_spec cands rest
      (bBoxes ++ [{ boxID := bBoxes.length, roi := cands[it].box, classID := cands[it].classId,
                    confidence := cands[it].confidence }])
      (fun i hi => h i (List.mem_cons_of_mem _ hi))
    refine ⟨{ boxID := bBoxes.length, roi := cands[it].box, classID := cands[it].classId,
              confidence := cands[it].confidence } :: new, ?_, by simp [hlen], ?_⟩
    · rw [assemble_cons cands it rest bBoxes _ hc, hnew]
      simp
    · intro k b hb
      cases k with
      | zero =>
        simp only [List.getElem?_cons_zero, Option.some.injEq] at hb
        subst hb
        exact ⟨by simp, it, cands[it], by simp, hc, rfl, rfl, rfl⟩
      | succ k =>
        simp only [List.getElem?_cons_succ] at hb
        obtain ⟨hid, it2, c, hit2, hc2, hrest⟩ := hall k b hb
        refine ⟨?_, it2, c, by simpa using hit2, hc2, hrest⟩
        rw [hid]
        simp only [List.length_append, List.length_singleton]
        push_cast
        ring

/-! ## The whole call -/

theorem detectObjects_eq (netOutput : List Mat) (imgCols imgRows : Int)
    (bBoxes : List BoundingBox) (confThreshold nmsThreshold : ℚ) (cands : List Candidate)
    (h : scanOutputs imgCols imgRows confThreshold netOutput [] = some cands) :
    detectObjects netOutput imgCols imgRows bBoxes confThreshold nmsThreshold =
      assemble cands (keptIndices cands confThreshold nmsThreshold) bBoxes := by
  rw [detectObjects, h]
  rfl

theorem keptIndices_nil (confThreshold nmsThreshold : ℚ) :
    keptIndices [] confThreshold nmsThreshold = [] := by
  simp [keptIndices, NMSBoxes, sortedIndices, List.enum, List.enumFrom, suppressLoop_nil]

/-- C3, as amended: a call on well-formed rows (at least five channels each)
returns; the vector on exit is the vector on entry followed by one entry per
surviving candidate, and the entry appended at position `k` has `boxID = k`;
when no row qualifies nothing is appended. -/
theorem detectObjects_appends_dense (netOutput : List Mat) (imgCols imgRows : Int)
    (bBoxes : List BoundingBox) (confThreshold nmsThreshold : ℚ)
    (hwf : ∀ m ∈ netOutput, ∀ data ∈ m, 5 ≤ data.length) :
    ∃ out, detectObjects netOutput imgCols imgRows bBoxes confThreshold nmsThreshold = some out ∧
      out.length = bBoxes.length +
        survivorCount netOutput imgCols imgRows confThreshold nmsThreshold ∧
      out.take bBoxes.length = bBoxes ∧
      (∀ k b, bBoxes.length ≤ k → out[k]? = some b → b.boxID = (k : Int)) ∧
      ((∀ m ∈ netOutput, ∀ data ∈ m,
          decodeRow imgCols imgRows confThreshold data = some none) → out = bBoxes) := by
  obtain ⟨cands, hc⟩ := scanOutputs_isSome imgCols imgRows confThreshold netOutput [] hwf
  obtain ⟨new, hnew, hlen, hall⟩ := assemble_spec cands
    (keptIndices cands confThreshold nmsThreshold) bBoxes
    (fun it hit => mem_keptIndices_lt cands confThreshold nmsThreshold it hit)
  refine ⟨bBoxes ++ new, ?_, ?_, List.take_left _ _, ?_, ?_⟩
  · rw [detectObjects_eq _ _ _ _ _ _ cands hc, hnew]
  · simp [survivorCount, hc, hlen]
  · intro k b hk hb
    rw [List.getElem?_append_right hk] at hb
    rw [(hall _ b hb).1]
    congr 1
    omega
  · intro hnone
    have hc2 := scanOutputs_none_qualify imgCols imgRows confThreshold netOutput [] hnone
    rw [hc] at hc2
    simp only [Option.some.injEq] at hc2
    subst hc2
    rw [keptIndices_nil] at hlen
    have : new = [] := List.eq_nil_of_length_eq_zero hlen
    simp [this]

/-- Witness for C3 as amended: one tensor of two rows, the first above the
threshold, appended to a vector that holds one entry on entry. -/
theorem detectObjects_appends_dense_witness :
    (∀ m ∈ ([[[0, 0, 1, 1, 0, 3 / 5], [0, 0, 1, 1, 0, 2 / 5]]] : List Mat),
      ∀ data ∈ m, 5 ≤ data.length) ∧
    ∃ out, detectObjects [[[0, 0, 1, 1, 0, 3 / 5], [0, 0, 1, 1, 0, 2 / 5]]] 10 10
        [⟨0, ⟨1, 1, 2, 2⟩, 0, 1⟩] (1 / 2) (1 / 2) = some out ∧
      out.length = ([⟨0, ⟨1, 1, 2, 2⟩, 0, 1⟩] : List BoundingBox).length +
        survivorCount [[[0, 0, 1, 1, 0, 3 / 5], [0, 0, 1, 1, 0, 2 / 5]]] 10 10 (1 / 2) (1 / 2) ∧
      out.take ([⟨0, ⟨1, 1, 2, 2⟩, 0, 1⟩] : List BoundingBox).length =
        [⟨0, ⟨1, 1, 2, 2⟩, 0, 1⟩] ∧
      (∀ k b, ([⟨0, ⟨1, 1, 2, 2⟩, 0, 1⟩] : List BoundingBox).length ≤ k →
        out[k]? = some b → b.boxID = (k : Int)) ∧
      ((∀ m ∈ ([[[0, 0, 1, 1, 0, 3 / 5], [0, 0, 1, 1, 0, 2 / 5]]] : List Mat), ∀ data ∈ m,
          decodeRow 10 10 (1 / 2) data = some none) → out = [⟨0, ⟨1, 1, 2, 2⟩, 0, 1⟩]) :=
  have hwf : ∀ m ∈ ([[[0, 0, 1, 1, 0, 3 / 5], [0, 0, 1, 1, 0, 2 / 5]]] : List Mat),
      ∀ data ∈ m, 5 ≤ data.length := by
    intro m hm data hd
    have hm1 : m = [[0, 0, 1, 1, 0, 3 / 5], [0, 0, 1, 1, 0, 2 / 5]] := by simpa using hm
    subst hm1
    have hd1 : data = [0, 0, 1, 1, 0, 3 / 5] ∨ data = [0, 0, 1, 1, 0, 2 / 5] := by
      simpa using hd
    rcases hd1 with h | h
    · subst h
      simp
    · subst h
      simp
  ⟨hwf, detectObjects_appends_dense _ 10 10 [⟨0, ⟨1, 1, 2, 2⟩, 0, 1⟩] (1 / 2) (1 / 2) hwf⟩

/-- C3, counterexample: a call whose one output tensor has no rows, on a vector
that holds one entry with `boxID = 7`, returns that vector: one entry although
no candidate survived, not empty, and position 0 does not hold `boxID = 0`. -/
theorem detectObjects_keeps_entries :
    detectObjects [[]] 10 10 [⟨7, ⟨0, 0, 1, 1⟩, 0, 1⟩] (1 / 2) (1 / 2) =
      some [⟨7, ⟨0, 0, 1, 1⟩, 0, 1⟩] ∧
    survivorCount [[]] 10 10 (1 / 2) (1 / 2) = 0 ∧
    ([⟨7, ⟨0, 0, 1, 1⟩, 0, 1⟩] : List BoundingBox).length ≠
      survivorCount [[]] 10 10 (1 / 2) (1 / 2) ∧
    ([⟨7, ⟨0, 0, 1, 1⟩, 0, 1⟩] : List BoundingBox) ≠ [] := by
  have h1 : survivorCount [[]] 10 10 (1 / 2) (1 / 2) = 0 := by
    simp [survivorCount, scanOutputs, scanRows, keptIndices_nil]
  refine ⟨?_, h1, by rw [h1]; decide, by decide⟩
  simp [detectObjects, scanOutputs, scanRows, suppressAndAssemble, keptIndices_nil, assemble]

theorem minMaxLoc_le_one (scores : List ℚ) (h : ∀ s ∈ scores, s ≤ 1) :
    (minMaxLoc scores).1 ≤ 1 := by
  cases scores with
  | nil => simp [minMaxLoc]
  | cons s rest => exact h _ (minMaxLoc_mem (s :: rest) (by simp))

theorem floatToInt_mulF32_nonneg (g : ℚ) (n : Int) (hg : 0 ≤ g) (hn : 0 ≤ n)
    (hp : mulF32 g n < 2147483648) : 0 ≤ floatToInt (mulF32 g n) := by
  obtain ⟨he, h0, _⟩ := floatToInt_of_nonneg_lt _ (mulF32_nonneg g n hg hn) hp
  rw [he]
  exact h0

/-- C8, as amended: when every row has non-negative size channels whose
float32 products with the image size are below `2 ^ 31`, and class scores at
most 1, and the image size is non-negative, every box that a call appends has
non-negative width and height and a confidence above `confThreshold` and at
most 1, hence in `(0, 1]` for a non-negative `confThreshold`. -/
theorem detectObjects_boxes_wellformed (netOutput : List Mat) (imgCols imgRows : Int)
    (bBoxes : List BoundingBox) (confThreshold nmsThreshold : ℚ) (out : List BoundingBox)
    (hW : 0 ≤ imgCols) (hH : 0 ≤ imgRows)
    (hrows : ∀ m ∈ netOutput, ∀ data ∈ m,
      0 ≤ data.getD 2 0 ∧ 0 ≤ data.getD 3 0 ∧
      mulF32 (data.getD 2 0) imgCols < 2147483648 ∧
      mulF32 (data.getD 3 0) imgRows < 2147483648 ∧ ∀ s ∈ data.drop 5, s ≤ 1)
    (hout : detectObjects netOutput imgCols imgRows bBoxes confThreshold nmsThreshold =
      some out) :
    ∀ b ∈ out.drop bBoxes.length,
      0 ≤ b.roi.width ∧ 0 ≤ b.roi.height ∧ confThreshold < b.confidence ∧ b.confidence ≤ 1 ∧
        (0 ≤ confThreshold → 0 < b.confidence) := by
  cases hc : scanOutputs imgCols imgRows confThreshold netOutput [] with
  | none => simp [detectObjects, hc] at hout
  | some cands =>
    obtain ⟨new, hnew, _, hall⟩ := assemble_spec cands
      (keptIndices cands confThreshold nmsThreshold) bBoxes
      (fun it hit => mem_keptIndices_lt cands confThreshold nmsThreshold it hit)
    rw [detectObjects_eq _ _ _ _ _ _ cands hc, hnew] at hout
    simp only [Option.some.injEq] at hout
    subst hout
    rw [List.drop_left]
    intro b hb
    obtain ⟨k, hk⟩ := List.getElem?_of_mem hb
    obtain ⟨_, it, c, _, hcit, hroi, _, hconf⟩ := hall k b hk
    have hcm : c ∈ cands := List.getElem?_mem hcit
    obtain ⟨new2, hnew2, hall2⟩ :=
      scanOutputs_spec imgCols imgRows confThreshold netOutput [] cands hc
    rw [hnew2, List.nil_append] at hcm
    obtain ⟨m, hm, data, hdm, hd⟩ := hall2 c hcm
    obtain ⟨hg2, hg3, hp2, hp3, hs⟩ := hrows m hm data hdm
    match data, hd, hg2, hg3, hp2, hp3, hs with
    | d0 :: d1 :: d2 :: d3 :: o :: scores, hd, hg2, hg3, hp2, hp3, hs =>
      obtain ⟨hgt, rfl⟩ := decodeRow_some_some _ _ _ _ _ _ _ _ _ _ hd
      have hle : (minMaxLoc scores).1 ≤ 1 := minMaxLoc_le_one scores (by simpa using hs)
      rw [hroi, hconf]
      exact ⟨floatToInt_mulF32_nonneg d2 imgCols (by simpa using hg2) hW (by simpa using hp2),
        floatToInt_mulF32_nonneg d3 imgRows (by simpa using hg3) hH (by simpa using hp3),
        hgt, hle, fun h0 => lt_of_le_of_lt h0 hgt⟩
    | [], hd, _, _, _, _, _ => simp [decodeRow] at hd
    | [_], hd, _, _, _, _, _ => simp [decodeRow] at hd
    | [_, _], hd, _, _, _, _, _ => simp [decodeRow] at hd
    | [_, _, _], hd, _, _, _, _, _ => simp [decodeRow] at hd
    | [_, _, _, _], hd, _, _, _, _, _ => simp [decodeRow] at hd

theorem keptIndices_single (c : Candidate) (confThreshold nmsThreshold : ℚ)
    (h : confThreshold < c.confidence) : keptIndices [c] confThreshold nmsThreshold = [0] := by
  simp [keptIndices, NMSBoxes, sortedIndices, List.enum, List.enumFrom, List.filter, h,
    List.insertionSort, List.orderedInsert, suppressLoop_cons, suppressLoop_nil]

/-- A call whose network output is one row that qualifies, on an empty vector:
the one candidate is kept and assembled with `boxID = 0`. -/
theorem detectObjects_single_row (imgCols imgRows : Int) (confThreshold nmsThreshold : ℚ)
    (data : List ℚ) (c : Candidate)
    (hrow : decodeRow imgCols imgRows confThreshold data = some (some c))
    (hgt : confThreshold < c.confidence) :
    detectObjects [[data]] imgCols imgRows [] confThreshold nmsThreshold =
      some [{ boxID := 0, roi := c.box, classID := c.classId, confidence := c.confidence }] := by
  have hscan : scanOutputs imgCols imgRows confThreshold [[data]] [] = some [c] := by
    rw [scanOutputs_cons, scanRows_single, hrow]
    rfl
  rw [detectObjects_eq _ _ _ _ _ _ [c] hscan, keptIndices_single c _ _ hgt]
  rfl

/-- Witness for C8 as amended: the row of scenario 5 on a 100 by 200 image. -/
theorem detectObjects_boxes_wellformed_witness :
    ((0 : Int) ≤ 100 ∧ (0 : Int) ≤ 200) ∧
    (∀ m ∈ ([[[1 / 2, 1 / 2, 1 / 5, 2 / 5, 0, 1 / 10, 9 / 10]]] : List Mat), ∀ data ∈ m,
      0 ≤ data.getD 2 0 ∧ 0 ≤ data.getD 3 0 ∧
      mulF32 (data.getD 2 0) 100 < 2147483648 ∧
      mulF32 (data.getD 3 0) 200 < 2147483648 ∧ ∀ s ∈ data.drop 5, s ≤ 1) ∧
    detectObjects [[[1 / 2, 1 / 2, 1 / 5, 2 / 5, 0, 1 / 10, 9 / 10]]] 100 200 [] (1 / 2) (1 / 2) =
      some [⟨0, ⟨40, 60, 20, 80⟩, 1, 9 / 10⟩] ∧
    ∀ b ∈ ([⟨0, ⟨40, 60, 20, 80⟩, 1, 9 / 10⟩] : List BoundingBox).drop
        ([] : List BoundingBox).length,
      0 ≤ b.roi.width ∧ 0 ≤ b.roi.height ∧ (1 / 2 : ℚ) < b.confidence ∧ b.confidence ≤ 1 ∧
        ((0 : ℚ) ≤ 1 / 2 → 0 < b.confidence) :=
  have hW : (0 : Int) ≤ 100 := by decide
  have hH : (0 : Int) ≤ 200 := by decide
  have hrows : ∀ m ∈ ([[[1 / 2, 1 / 2, 1 / 5, 2 / 5, 0, 1 / 10, 9 / 10]]] : List Mat),
      ∀ data ∈ m, 0 ≤ data.getD 2 0 ∧ 0 ≤ data.getD 3 0 ∧
        mulF32 (data.getD 2 0) 100 < 2147483648 ∧
        mulF32 (data.getD 3 0) 200 < 2147483648 ∧ ∀ s ∈ data.drop 5, s ≤ 1 := by
    intro m hm data hd
    have hm1 : m = [[1 / 2, 1 / 2, 1 / 5, 2 / 5, 0, 1 / 10, 9 / 10]] := by simpa using hm
    subst hm1
    have hd1 : data = [1 / 2, 1 / 2, 1 / 5, 2 / 5, 0, 1 / 10, 9 / 10] := by simpa using hd
    subst hd1
    have e2 : ([1 / 2, 1 / 2, 1 / 5, 2 / 5, 0, 1 / 10, 9 / 10] : List ℚ).getD 2 0 = 1 / 5 := rfl
    have e3 : ([1 / 2, 1 / 2, 1 / 5, 2 / 5, 0, 1 / 10, 9 / 10] : List ℚ).getD 3 0 = 2 / 5 := rfl
    rw [e2, e3, mulF32_fifth_100, mulF32_two_fifths_200]
    refine ⟨by norm_num, by norm_num, by norm_num, by norm_num, ?_⟩
    intro s hs
    have : s = 1 / 10 ∨ s = 9 / 10 := by simpa using hs
    rcases this with h | h
    · subst h
      norm_num
    · subst h
      norm_num
  have hrow : decodeRow 100 200 (1 / 2) [1 / 2, 1 / 2, 1 / 5, 2 / 5, 0, 1 / 10, 9 / 10] =
      some (some { box := ⟨40, 60, 20, 80⟩, classId := 1, confidence := 9 / 10 }) := by
    rw [decodeRow_channels, decodeBox_scenario5]
    norm_num [minMaxLoc]
  have hout : detectObjects [[[1 / 2, 1 / 2, 1 / 5, 2 / 5, 0, 1 / 10, 9 / 10]]] 100 200 []
      (1 / 2) (1 / 2) = some [⟨0, ⟨40, 60, 20, 80⟩, 1, 9 / 10⟩] :=
    detectObjects_single_row 100 200 (1 / 2) (1 / 2) _ _ hrow (by norm_num)
  ⟨⟨hW, hH⟩, hrows, hout,
    detectObjects_boxes_wellformed _ 100 200 [] (1 / 2) (1 / 2) _ hW hH hrows hout⟩

theorem decodeBox_negative_width :
    decodeBox 0 0 (-1 / 4) (1 / 2) 100 100 = ⟨12, -25, -25, 50⟩ := by
  simp only [decodeBox, mulF32_zero_left, mulF32_neg_quarter_100, mulF32_half_100]
  norm_num [floatToInt, truncTowardZero, wrapInt32, INT_MIN, INT_MAX]
  decide

theorem decodeBox_out_of_range :
    decodeBox 0 0 3000000 0 1000 1000 = ⟨1073741824, 0, -2147483648, 0⟩ := by
  simp only [decodeBox, mulF32_zero_left, mulF32_3000000_1000]
  norm_num [floatToInt, truncTowardZero, wrapInt32, INT_MIN, INT_MAX]
  decide

/-- C8, counterexample: a row with width channel `-0.25` and class score `2`
yields a box of width `-25` and confidence `2`. A row with non-negative
channels and class score 1 whose width product `3000000 * 1000` does not fit
the `int` yields a box of width `INT_MIN`. -/
theorem detectObjects_box_illformed :
    (detectObjects [[[0, 0, -1 / 4, 1 / 2, 0, 2]]] 100 100 [] (1 / 2) (1 / 2) =
        some [⟨0, ⟨12, -25, -25, 50⟩, 0, 2⟩] ∧
      (⟨0, ⟨12, -25, -25, 50⟩, 0, 2⟩ : BoundingBox).roi.width < 0 ∧
      ¬ (⟨0, ⟨12, -25, -25, 50⟩, 0, 2⟩ : BoundingBox).confidence ≤ 1) ∧
    (detectObjects [[[0, 0, 3000000, 0, 0, 1]]] 1000 1000 [] (1 / 2) (1 / 2) =
        some [⟨0, ⟨1073741824, 0, -2147483648, 0⟩, 0, 1⟩] ∧
      (⟨0, ⟨1073741824, 0, -2147483648, 0⟩, 0, 1⟩ : BoundingBox).roi.width < 0) := by
  have hrow1 : decodeRow 100 100 (1 / 2) [0, 0, -1 / 4, 1 / 2, 0, 2] =
      some (some { box := ⟨12, -25, -25, 50⟩, classId := 0, confidence := 2 }) := by
    rw [decodeRow_channels, decodeBox_negative_width]
    norm_num [minMaxLoc]
  have hrow2 : decodeRow 1000 1000 (1 / 2) [0, 0, 3000000, 0, 0, 1] =
      some (some { box := ⟨1073741824, 0, -2147483648, 0⟩, classId := 0, confidence := 1 }) := by
    rw [decodeRow_channels, decodeBox_out_of_range]
    norm_num [minMaxLoc]
  exact ⟨⟨detectObjects_single_row 100 100 (1 / 2) (1 / 2) _ _ hrow1 (by norm_num),
      by decide, by norm_num⟩,
    ⟨detectObjects_single_row 1000 1000 (1 / 2) (1 / 2) _ _ hrow2 (by norm_num), by decide⟩⟩

/-! ## The label background -/

theorem roundToInt_three_halves (h : Int) (hh : 0 ≤ h) :
    roundToInt ((3 / 2 : ℚ) * h) = h + (h + 1) / 2 := by
  have hq : (0 : ℚ) ≤ (3 / 2 : ℚ) * h := mul_nonneg (by norm_num) (by exact_mod_cast hh)
  rw [roundToInt, if_pos hq, Int.floor_eq_iff]
  have h1 : 2 * ((h + 1) / 2) ≤ h + 1 := by omega
  have h2 : h + 1 ≤ 2 * ((h + 1) / 2) + 1 := by omega
  have h1q : (2 : ℚ) * (((h + 1) / 2 : Int) : ℚ) ≤ (h : ℚ) + 1 := by exact_mod_cast h1
  have h2q : (h : ℚ) + 1 ≤ 2 * (((h + 1) / 2 : Int) : ℚ) + 1 := by exact_mod_cast h2
  push_cast
  constructor <;> linarith

/-- The clamp of line 130 bounds the label background from below by
`labelHeight - round(1.5 * labelHeight)`, which is negative for every positive
text height; the bound is attained whenever `roiY ≤ labelHeight`. -/
theorem labelBackgroundTop_bound (roiY labelHeight : Int) (hh : 0 ≤ labelHeight) :
    -((labelHeight + 1) / 2) ≤ labelBackgroundTop roiY labelHeight ∧
    (roiY ≤ labelHeight → labelBackgroundTop roiY labelHeight = -((labelHeight + 1) / 2)) := by
  rw [labelBackgroundTop, roundToInt_three_halves labelHeight hh]
  constructor
  · have := le_max_right roiY labelHeight
    omega
  · intro hle
    rw [max_eq_right hle]
    omega

/-- C9, the code at the failing input: for a box at the top of the image
(`roi.y = 0`) and a label of text height 10 the top edge of the background is at
`y = -5`, above the image. -/
theorem labelBackgroundTop_above_image :
    labelBackgroundTop 0 10 = -5 ∧ ¬ 0 ≤ labelBackgroundTop 0 10 := by
  have h : labelBackgroundTop 0 10 = -5 := by
    norm_num [labelBackgroundTop, roundToInt]
  exact ⟨h, by rw [h]; decide⟩

end ObjectDetection2D
